import Mathlib

/-!
# fastbuffer.hpp: a shallow embedding

The two classes of `fastbuffer.hpp` are embedded as Lean structures whose
fields are the C++ data members, under the members' names.

* `std::size_t` values are natural numbers below `SIZE_MOD = 2 ^ 64`; the
  arithmetic the code performs on them (`+=`, `-`, `++`) is written with an
  explicit reduction modulo `SIZE_MOD` (`addSz`, `subSz`).
* A heap array (`new T[n]`) is a list of length `n`.  Its initial contents are
  indeterminate in C++, so the constructors take them as a parameter.
* A member function that may throw returns an `Outcome`: it returns normally
  with a new object state, or a `BufferException` propagates and the object is
  left in the state it had at the `throw`, or it indexes an array outside its
  bounds, to which C++ assigns no behaviour (`Outcome.undefined`).
* The text of an exception message is assembled by `boost::format`, which is
  not part of this repository; an exception is identified here by the
  function that throws it and by the two numbers handed to the formatter.
* A `float` is an IEEE 754 binary32 number, represented by its rational
  value; a conversion or a division yields the `float` nearest to the exact
  result, the one with the even significand when two are equally near
  (`roundFloat`), and a division by zero yields no number.  The floats that
  the code computes are zero or lie between `2 ^ (-64)` and `2 ^ 64`, inside
  the normal range of binary32, so the exponent is left unbounded.
* A move constructor returns a pair: the object constructed and the state in
  which the moved-from object is left.
-/

namespace FastBuffer

/-! ## `std::size_t` -/

/-- Number of values of a `std::size_t` (64-bit target). -/
def SIZE_MOD : Nat := 2 ^ 64

/-- Addition of two `std::size_t` values, as `a += b` computes it. -/
def addSz (a b : Nat) : Nat := (a + b) % SIZE_MOD

/-- Subtraction of two `std::size_t` values, as `a - b` computes it
(wrapping around below zero). -/
def subSz (a b : Nat) : Nat := (a + (SIZE_MOD - b % SIZE_MOD)) % SIZE_MOD

/-! ## Exceptions and outcomes -/

/-- The class `BufferException`.  Two places construct one:
`checkFreeSpace` ("Buffer overflow: ...", fed `free_space` and `commit_size`)
and `checkConsumableSpace` ("Buffer underflow: ...", fed `unconsumed_space`
and `consume_size`). -/
inductive BufferException where
  | overflow (free_space commit_size : Nat)
  | underflow (unconsumed_space consume_size : Nat)
  deriving DecidableEq, Repr

/-- Result of calling a mutating member function on an object of type `σ`. -/
inductive Outcome (σ : Type) where
  /-- The call returned; the object is now in state `s`. -/
  | ok (s : σ)
  /-- The exception `e` left the call; the object is in state `s`. -/
  | thrown (e : BufferException) (s : σ)
  /-- The call accessed an array outside its bounds. -/
  | undefined
  deriving DecidableEq, Repr

/-- The object state a call leaves behind, when it has one. -/
def Outcome.state? {σ : Type} : Outcome σ → Option σ
  | .ok s => some s
  | .thrown _ s => some s
  | .undefined => none

/-- True when the call ended by throwing. -/
def Outcome.failed {σ : Type} : Outcome σ → Bool
  | .thrown _ _ => true
  | _ => false

/-! ## `BufferBase` -/

/-- The data members of `class BufferBase`; `m_buffer` is the heap array the
pointer of that name refers to (the empty list for `nullptr`). -/
structure BufferBase where
  m_bufferOffset : Nat
  m_bufferUsed : Nat
  m_bufferSize : Nat
  m_buffer : List UInt8
  deriving DecidableEq, Repr

/-- A view handed to `boost::asio::buffer(ptr, len)`: `start` is the index
into `m_buffer` at which `ptr` points, `len` the length passed. -/
structure Region where
  start : Nat
  len : Nat
  deriving DecidableEq, Repr

namespace BufferBase

/-- Constructor `BufferBase(std::size_t size)`: cursors zero, a fresh array of
`size` bytes whose contents `junk` are whatever the allocator returned. -/
def new (size : Nat) (junk : Nat → UInt8) : BufferBase :=
  { m_bufferOffset := 0, m_bufferUsed := 0, m_bufferSize := size,
    m_buffer := (List.range size).map junk }

/-- Member `size()`. -/
def size (b : BufferBase) : Nat := b.m_bufferUsed

/-- Member `capacity()`. -/
def capacity (b : BufferBase) : Nat := b.m_bufferSize

/-- Member `unused()`: `m_bufferSize - m_bufferUsed`. -/
def unused (b : BufferBase) : Nat := subSz b.m_bufferSize b.m_bufferUsed

/-- Member `unconsumed()`: `m_bufferUsed - m_bufferOffset`. -/
def unconsumed (b : BufferBase) : Nat := subSz b.m_bufferUsed b.m_bufferOffset

/-- Member `checkFreeSpace`: throws when `commit_size > unused()`. -/
def checkFreeSpace (b : BufferBase) (commit_size : Nat) : Except BufferException Unit :=
  let free_space := b.unused
  if commit_size > free_space then
    .error (.overflow free_space commit_size)
  else
    .ok ()

/-- Member `checkConsumableSpace`: throws when `consume_size > unconsumed()`. -/
def checkConsumableSpace (b : BufferBase) (consume_size : Nat) :
    Except BufferException Unit :=
  let unconsumed_space := b.unconsumed
  if consume_size > unconsumed_space then
    .error (.underflow unconsumed_space consume_size)
  else
    .ok ()

/-- The call `std::copy(to_add.begin(), to_add.end(), &mem[pos])` on an array
`mem`: the bytes of `to_add` replace those at indices `pos, pos + 1, ...`;
the callers make it only when `pos + to_add.length` is within the array. -/
def copyInto (mem : List UInt8) (pos : Nat) (to_add : List UInt8) : List UInt8 :=
  mem.take pos ++ to_add ++ mem.drop (pos + to_add.length)

/-- Member `operator+=(std::size_t commit_size)`. -/
def append (b : BufferBase) (commit_size : Nat) : Outcome BufferBase :=
  match b.checkFreeSpace commit_size with
  | .error e => .thrown e b
  | .ok () => .ok { b with m_bufferUsed := addSz b.m_bufferUsed commit_size }

/-- Members `operator+=(const std::initializer_list<uint8_t> &)` and
`operator+=(const std::string &)`, which have the same body; `to_add` is the
byte sequence of the argument. -/
def appendBytes (b : BufferBase) (to_add : List UInt8) : Outcome BufferBase :=
  match b.checkFreeSpace to_add.length with
  | .error e => .thrown e b
  | .ok () =>
    if b.m_bufferUsed + to_add.length ≤ b.m_buffer.length then
      .ok { b with
        m_buffer := copyInto b.m_buffer b.m_bufferUsed to_add
        m_bufferUsed := addSz b.m_bufferUsed to_add.length }
    else
      .undefined

/-- Member `operator-=(std::size_t consume_size)`. -/
def consume (b : BufferBase) (consume_size : Nat) : Outcome BufferBase :=
  let unconsumed_space := b.unconsumed
  match b.checkConsumableSpace consume_size with
  | .error e => .thrown e b
  | .ok () =>
    if consume_size = unconsumed_space then
      .ok { b with m_bufferUsed := 0, m_bufferOffset := 0 }
    else
      .ok { b with m_bufferOffset := addSz b.m_bufferOffset consume_size }

/-- Member `operator+()`: `buffer(&m_buffer[m_bufferUsed], unused())`. -/
def writableRegion (b : BufferBase) : Region :=
  { start := b.m_bufferUsed, len := b.unused }

/-- Member `operator-()`: `buffer(&m_buffer[m_bufferOffset], m_bufferUsed)`. -/
def readableRegion (b : BufferBase) : Region :=
  { start := b.m_bufferOffset, len := b.m_bufferUsed }

/-- Member `operator[](std::size_t index)`: the byte `m_buffer[index]`, when
`index` lies inside the array. -/
def byteAt (b : BufferBase) (index : Nat) : Option UInt8 := b.m_buffer[index]?

end BufferBase

/-- The operations a caller can apply to a byte buffer. -/
inductive BufOp where
  | append (commit_size : Nat)
  | appendBytes (to_add : List UInt8)
  | consume (consume_size : Nat)
  deriving DecidableEq, Repr

namespace BufferBase

/-- One call on a byte buffer. -/
def step (b : BufferBase) : BufOp → Outcome BufferBase
  | .append n => b.append n
  | .appendBytes d => b.appendBytes d
  | .consume n => b.consume n

/-- The byte buffer states a program can observe: a freshly constructed
buffer, and the state any call leaves behind, whether the call returned or
threw. -/
inductive Reachable : BufferBase → Prop where
  | construct (size : Nat) (junk : Nat → UInt8) (hsize : size < SIZE_MOD) :
      Reachable (BufferBase.new size junk)
  | call (b b' : BufferBase) (op : BufOp) (hb : Reachable b)
      (hstep : (b.step op).state? = some b') : Reachable b'

/-- The data-model invariant of the byte buffer, with the two facts the C++
types add: the capacity is a `std::size_t` and the array has `m_bufferSize`
elements. -/
def WellFormed (b : BufferBase) : Prop :=
  b.m_bufferOffset ≤ b.m_bufferUsed ∧ b.m_bufferUsed ≤ b.m_bufferSize ∧
    b.m_bufferSize < SIZE_MOD ∧ b.m_buffer.length = b.m_bufferSize

instance (b : BufferBase) : Decidable b.WellFormed := by
  unfold WellFormed; infer_instance

end BufferBase

/-! ## `ContiguousPacketQueue` -/

/-- The nested `struct Element`. -/
structure Element where
  size : Nat
  deriving DecidableEq, Repr

/-- The data members of `class ContiguousPacketQueue`; `m_packets` is the heap
array of length records the pointer of that name refers to. -/
structure ContiguousPacketQueue where
  m_buffer : BufferBase
  m_packetsOffset : Nat
  m_packetsUsed : Nat
  m_packetsSize : Nat
  m_packets : List Element
  deriving DecidableEq, Repr

namespace ContiguousPacketQueue

/-- Constructor `ContiguousPacketQueue(max_packets, max_queue_size)`; the two
fresh arrays hold whatever the allocator returned. -/
def new (max_packets max_queue_size : Nat) (junkBytes : Nat → UInt8)
    (junkPackets : Nat → Element) : ContiguousPacketQueue :=
  { m_buffer := BufferBase.new max_queue_size junkBytes,
    m_packetsOffset := 0, m_packetsUsed := 0, m_packetsSize := max_packets,
    m_packets := (List.range max_packets).map junkPackets }

/-- Member `size()`. -/
def size (q : ContiguousPacketQueue) : Nat := q.m_packetsUsed

/-- Member `capacity()`. -/
def capacity (q : ContiguousPacketQueue) : Nat := q.m_packetsSize

/-- Member `unused()`: `m_packetsSize - m_packetsUsed`. -/
def unused (q : ContiguousPacketQueue) : Nat := subSz q.m_packetsSize q.m_packetsUsed

/-- Member `unconsumed()`: `m_packetsUsed - m_packetsOffset`. -/
def unconsumed (q : ContiguousPacketQueue) : Nat := subSz q.m_packetsUsed q.m_packetsOffset

/-- Member `GetBuffer()`. -/
def GetBuffer (q : ContiguousPacketQueue) : BufferBase := q.m_buffer

/-- The statement `m_packets[m_packetsUsed++].size = n;` that opens each
`operator+=`: the record at the old `m_packetsUsed` receives `n` and the
counter is incremented.  `none` when that index is outside the array. -/
def recordLength (q : ContiguousPacketQueue) (n : Nat) : Option ContiguousPacketQueue :=
  if q.m_packetsUsed < q.m_packets.length then
    some { q with
      m_packets := q.m_packets.set q.m_packetsUsed { size := n }
      m_packetsUsed := addSz q.m_packetsUsed 1 }
  else
    none

/-- The outcome for the queue of a call made on its member `m_buffer`: the
queue `q` with that member in the state the call left it. -/
def withBuffer (q : ContiguousPacketQueue) : Outcome BufferBase → Outcome ContiguousPacketQueue
  | .ok b => .ok { q with m_buffer := b }
  | .thrown e b => .thrown e { q with m_buffer := b }
  | .undefined => .undefined

/-- Member `operator+=(std::size_t commit_size)`:
`m_packets[m_packetsUsed++].size = commit_size; m_buffer += commit_size;`. -/
def enqueue (q : ContiguousPacketQueue) (commit_size : Nat) : Outcome ContiguousPacketQueue :=
  match q.recordLength commit_size with
  | none => .undefined
  | some q1 => q1.withBuffer (q1.m_buffer.append commit_size)

/-- Members `operator+=(const std::initializer_list<uint8_t> &)` and
`operator+=(const std::string &)`:
`m_packets[m_packetsUsed++].size = to_add.size(); m_buffer += to_add;`. -/
def enqueueBytes (q : ContiguousPacketQueue) (to_add : List UInt8) :
    Outcome ContiguousPacketQueue :=
  match q.recordLength to_add.length with
  | none => .undefined
  | some q1 => q1.withBuffer (q1.m_buffer.appendBytes to_add)

/-- Member `operator--()`. -/
def dequeue (q : ContiguousPacketQueue) : Outcome ContiguousPacketQueue :=
  match q.m_packets[q.m_packetsOffset]? with
  | none => .undefined
  | some elem =>
    let consume_size := elem.size
    match q.m_buffer.consume consume_size with
    | .undefined => .undefined
    | .thrown e b => .thrown e { q with m_buffer := b }
    | .ok b =>
      let offset := addSz q.m_packetsOffset 1
      if offset = q.m_packetsUsed then
        .ok { q with m_buffer := b, m_packetsOffset := 0, m_packetsUsed := 0 }
      else
        .ok { q with m_buffer := b, m_packetsOffset := offset }

/-- Member `operator+()`: `+m_buffer`. -/
def writableRegion (q : ContiguousPacketQueue) : Region := q.m_buffer.writableRegion

/-- Member `operator-()`: `-m_buffer`. -/
def readableRegion (q : ContiguousPacketQueue) : Region := q.m_buffer.readableRegion

end ContiguousPacketQueue

/-- The operations a caller can apply to a packet queue. -/
inductive QueueOp where
  | enqueue (commit_size : Nat)
  | enqueueBytes (to_add : List UInt8)
  | dequeue
  deriving DecidableEq, Repr

namespace ContiguousPacketQueue

/-- One call on a packet queue. -/
def step (q : ContiguousPacketQueue) : QueueOp → Outcome ContiguousPacketQueue
  | .enqueue n => q.enqueue n
  | .enqueueBytes d => q.enqueueBytes d
  | .dequeue => q.dequeue

/-- The packet queue states a program can observe: a freshly constructed
queue, and the state any call leaves behind, whether the call returned or
threw. -/
inductive Reachable : ContiguousPacketQueue → Prop where
  | construct (max_packets max_queue_size : Nat) (junkBytes : Nat → UInt8)
      (junkPackets : Nat → Element) (hp : max_packets < SIZE_MOD)
      (hq : max_queue_size < SIZE_MOD) :
      Reachable (ContiguousPacketQueue.new max_packets max_queue_size junkBytes junkPackets)
  | call (q q' : ContiguousPacketQueue) (op : QueueOp) (hq : Reachable q)
      (hstep : (q.step op).state? = some q') : Reachable q'

/-- Sum of the lengths recorded at the ledger indices
`[m_packetsOffset, m_packetsUsed)`. -/
def liveBytes (q : ContiguousPacketQueue) : Nat :=
  (((q.m_packets.take q.m_packetsUsed).drop q.m_packetsOffset).map Element.size).sum

/-- The data-model invariant of the packet queue: the counters are ordered and
the lengths of the live packets add up to the readable bytes of the embedded
byte buffer. -/
def Invariant (q : ContiguousPacketQueue) : Prop :=
  q.m_packetsOffset ≤ q.m_packetsUsed ∧ q.m_packetsUsed ≤ q.m_packetsSize ∧
    q.liveBytes = q.m_buffer.unconsumed

instance (q : ContiguousPacketQueue) : Decidable q.Invariant := by
  unfold Invariant; infer_instance

/-- The invariant of the queue together with what the constructor sets up: a
well-formed embedded byte buffer and a ledger array of `m_packetsSize`
records, `m_packetsSize` being a `std::size_t`. -/
def WellFormed (q : ContiguousPacketQueue) : Prop :=
  q.m_buffer.WellFormed ∧ q.m_packets.length = q.m_packetsSize ∧
    q.m_packetsSize < SIZE_MOD ∧ q.Invariant

instance (q : ContiguousPacketQueue) : Decidable q.WellFormed := by
  unfold WellFormed; infer_instance

/-- The packet queue states reached from the constructor by calls that all
return normally, `dequeue` being called only while a packet is live
(`m_packetsOffset < m_packetsUsed`). -/
inductive ReachableReturning : ContiguousPacketQueue → Prop where
  | construct (max_packets max_queue_size : Nat) (junkBytes : Nat → UInt8)
      (junkPackets : Nat → Element) (hp : max_packets < SIZE_MOD)
      (hq : max_queue_size < SIZE_MOD) :
      ReachableReturning
        (ContiguousPacketQueue.new max_packets max_queue_size junkBytes junkPackets)
  | call (q q' : ContiguousPacketQueue) (op : QueueOp) (hq : ReachableReturning q)
      (hlive : op = .dequeue → q.m_packetsOffset < q.m_packetsUsed)
      (hstep : q.step op = .ok q') : ReachableReturning q'

/-- The state a sequence of calls leaves behind, `none` once a call has no
defined behaviour. -/
def run (q : ContiguousPacketQueue) : List QueueOp → Option ContiguousPacketQueue
  | [] => some q
  | op :: ops => (q.step op).state?.bind fun q' => run q' ops

end ContiguousPacketQueue

namespace BufferBase

/-- The cursors and the capacity are values of type `std::size_t`. -/
def InRange (b : BufferBase) : Prop :=
  b.m_bufferOffset < SIZE_MOD ∧ b.m_bufferUsed < SIZE_MOD ∧ b.m_bufferSize < SIZE_MOD

instance (b : BufferBase) : Decidable b.InRange := by
  unfold InRange; infer_instance

/-- The state a sequence of calls leaves behind, `none` once a call has no
defined behaviour. -/
def run (b : BufferBase) : List BufOp → Option BufferBase
  | [] => some b
  | op :: ops => (b.step op).state?.bind fun b' => run b' ops

end BufferBase

/-! ## The states of the self-test in `main.cpp` -/

/-- Memory returned by the allocator in the scenarios: all zero. -/
def zeroBytes : Nat → UInt8 := fun _ => 0

/-- Self-test, line 19: `BufferBase base(16);`. -/
def selftestBase : BufferBase := BufferBase.new 16 zeroBytes

/-- Self-test, after line 23: `base += 3;`. -/
def selftestBaseCommitted : BufferBase :=
  { m_bufferOffset := 0, m_bufferUsed := 3, m_bufferSize := 16,
    m_buffer := List.replicate 16 0 }

/-- Self-test, after lines 23 and 24: `base += 3; base += {0xFF, 0xFF, 0xFF};`. -/
def selftestBaseFilled : BufferBase :=
  { m_bufferOffset := 0, m_bufferUsed := 6, m_bufferSize := 16,
    m_buffer := [0, 0, 0, 0xFF, 0xFF, 0xFF, 0, 0, 0, 0, 0, 0, 0, 0, 0, 0] }

/-- Self-test, after line 29: `base -= 2;`. -/
def selftestBaseConsumed : BufferBase :=
  { selftestBaseFilled with m_bufferOffset := 2 }

/-! ## Packet queue states used as concrete inputs -/

/-- Ledger memory returned by the allocator in the scenarios: every record
reads 7. -/
def sevenPackets : Nat → Element := fun _ => { size := 7 }

/-- State after `ContiguousPacketQueue queue(1, 64); queue += 4;`: the single
ledger slot is taken. -/
def fullQueue : ContiguousPacketQueue :=
  { m_buffer := { m_bufferOffset := 0, m_bufferUsed := 4, m_bufferSize := 64,
                  m_buffer := List.replicate 64 0 },
    m_packetsOffset := 0, m_packetsUsed := 1, m_packetsSize := 1,
    m_packets := [{ size := 4 }] }

/-- State after `ContiguousPacketQueue queue(2, 4);`. -/
def smallQueue : ContiguousPacketQueue := ContiguousPacketQueue.new 2 4 zeroBytes sevenPackets

/-- State in which `queue += 5;` leaves `smallQueue` when the byte buffer
throws: the length is recorded and counted, no byte was appended. -/
def smallQueueAfterThrow : ContiguousPacketQueue :=
  { smallQueue with m_packetsUsed := 1, m_packets := [{ size := 5 }, { size := 7 }] }

/-- State after `ContiguousPacketQueue queue(2, 16); queue += 0;`. -/
def zeroPacketQueue : ContiguousPacketQueue :=
  { m_buffer := BufferBase.new 16 zeroBytes,
    m_packetsOffset := 0, m_packetsUsed := 1, m_packetsSize := 2,
    m_packets := [{ size := 0 }, { size := 7 }] }

/-- State after `ContiguousPacketQueue queue(2, 16); queue += 0; --queue;`:
the one packet, of length zero, has been enqueued and dequeued. -/
def drainedQueue : ContiguousPacketQueue :=
  { m_buffer := BufferBase.new 16 zeroBytes,
    m_packetsOffset := 0, m_packetsUsed := 0, m_packetsSize := 2,
    m_packets := [{ size := 0 }, { size := 7 }] }

/-- State in which a further `--queue;` leaves `drainedQueue`. -/
def overdrainedQueue : ContiguousPacketQueue :=
  { drainedQueue with m_packetsOffset := 1 }

/-- State after `ContiguousPacketQueue queue(2, 16);`, whose ledger holds what
the allocator returned, here 7 in every record. -/
def freshQueue : ContiguousPacketQueue := ContiguousPacketQueue.new 2 16 zeroBytes sevenPackets

/-- State after `ContiguousPacketQueue queue(8, 64); queue += 4; queue += 8;
queue += {0xFF, 0xFF, 0xFF}; --queue;`. -/
def busyQueue : ContiguousPacketQueue :=
  { m_buffer := { m_bufferOffset := 4, m_bufferUsed := 15, m_bufferSize := 64,
                  m_buffer := List.replicate 12 0 ++ [0xFF, 0xFF, 0xFF] ++ List.replicate 49 0 },
    m_packetsOffset := 1, m_packetsUsed := 3, m_packetsSize := 8,
    m_packets := [{ size := 4 }, { size := 8 }, { size := 3 }, { size := 7 }, { size := 7 },
      { size := 7 }, { size := 7 }, { size := 7 }] }

/-! ## `float` -/

/-- The integer nearest to `m`, the even one when two are equally near. -/
def roundTiesEven (m : ℚ) : ℤ :=
  let f := ⌊m⌋
  let d := m - f
  if d < 1 / 2 then f
  else if 1 / 2 < d then f + 1
  else if f % 2 = 0 then f
  else f + 1

/-- The `float` (binary32, 24 significant bits) nearest to the number `x ≥ 0`,
the one with the even significand when two are equally near: with
`2 ^ e ≤ x < 2 ^ (e + 1)`, the multiple of `2 ^ (e - 23)` nearest to `x`. -/
def roundFloat (x : ℚ) : ℚ :=
  if x ≤ 0 then 0
  else
    let ulp : ℚ := 2 ^ (Int.log 2 x - 23)
    roundTiesEven (x / ulp) * ulp

/-- The conversion `static_cast<float>(n)` of a `std::size_t`, a number below
`2 ^ 64` and so within the range of `float`. -/
def toFloat (n : Nat) : ℚ := roundFloat (n : ℚ)

/-- The division `a / b` of two floats `a ≥ 0` and `b ≥ 0`: the `float`
nearest to the quotient, and no number (an infinity or a NaN) when `b` is
zero. -/
def divFloat (a b : ℚ) : Option ℚ :=
  if b = 0 then none else some (roundFloat (a / b))

namespace BufferBase

/-- Move constructor `BufferBase(BufferBase &&moveable)`: the first component
is the object constructed, the second the state in which `moveable` is left
(`m_buffer = nullptr`, cursors and size zero). -/
def move (moveable : BufferBase) : BufferBase × BufferBase :=
  ({ m_bufferOffset := moveable.m_bufferOffset, m_bufferUsed := moveable.m_bufferUsed,
     m_bufferSize := moveable.m_bufferSize, m_buffer := moveable.m_buffer },
   { m_buffer := [], m_bufferOffset := 0, m_bufferUsed := 0, m_bufferSize := 0 })

/-- Member `getHealth()`: `static_cast<float>(m_bufferUsed) /
static_cast<float>(m_bufferSize)`. -/
def getHealth (b : BufferBase) : Option ℚ :=
  divFloat (toFloat b.m_bufferUsed) (toFloat b.m_bufferSize)

/-- Member `getConsumeHealth()`: `static_cast<float>(unconsumed()) /
static_cast<float>(m_bufferSize)`. -/
def getConsumeHealth (b : BufferBase) : Option ℚ :=
  divFloat (toFloat b.unconsumed) (toFloat b.m_bufferSize)

end BufferBase

/-- A packet handed to the queue: `reserve n` is the argument of
`operator+=(std::size_t)`, `bytes data` that of the two byte-sequence
overloads. -/
inductive Packet where
  | reserve (commit_size : Nat)
  | bytes (to_add : List UInt8)
  deriving DecidableEq, Repr

/-- Number of bytes the packet takes in the byte buffer. -/
def Packet.length : Packet → Nat
  | .reserve n => n
  | .bytes d => d.length

/-- The call that enqueues the packet. -/
def Packet.toOp : Packet → QueueOp
  | .reserve n => .enqueue n
  | .bytes d => .enqueueBytes d

/-- Absolute index in the byte buffer at which packet `i` of `ps` starts when
the packets are stored back to back from index 0. -/
def packetStart (ps : List Packet) (i : Nat) : Nat := ((ps.take i).map Packet.length).sum

namespace ContiguousPacketQueue

/-- Move constructor `ContiguousPacketQueue(ContiguousPacketQueue &&moveable)`:
the member `m_buffer` is move-constructed from `moveable.m_buffer`, the other
members are taken over and then cleared in `moveable`.  First component: the
object constructed; second: the state in which `moveable` is left. -/
def move (moveable : ContiguousPacketQueue) : ContiguousPacketQueue × ContiguousPacketQueue :=
  let moved := BufferBase.move moveable.m_buffer
  ({ m_buffer := moved.1, m_packetsOffset := moveable.m_packetsOffset,
     m_packetsUsed := moveable.m_packetsUsed, m_packetsSize := moveable.m_packetsSize,
     m_packets := moveable.m_packets },
   { m_buffer := moved.2, m_packets := [], m_packetsOffset := 0, m_packetsUsed := 0,
     m_packetsSize := 0 })

/-- The state a sequence of calls leaves behind when every one of them
returns normally; `none` as soon as one throws or has no defined behaviour. -/
def runReturning (q : ContiguousPacketQueue) : List QueueOp → Option ContiguousPacketQueue
  | [] => some q
  | op :: ops =>
    match q.step op with
    | .ok q' => runReturning q' ops
    | _ => none

/-- The packet queue states reached from the constructor by calls that all
return normally. -/
inductive ReachableBySuccess : ContiguousPacketQueue → Prop where
  | construct (max_packets max_queue_size : Nat) (junkBytes : Nat → UInt8)
      (junkPackets : Nat → Element) (hp : max_packets < SIZE_MOD)
      (hq : max_queue_size < SIZE_MOD) :
      ReachableBySuccess
        (ContiguousPacketQueue.new max_packets max_queue_size junkBytes junkPackets)
  | call (q q' : ContiguousPacketQueue) (op : QueueOp) (hq : ReachableBySuccess q)
      (hstep : q.step op = .ok q') : ReachableBySuccess q'

/-- What the caller has established when it makes the call `op` within its
contract: room for one more length record and for the bytes before an
enqueue, at least one live packet before a dequeue. -/
def Requires (q : ContiguousPacketQueue) : QueueOp → Prop
  | .enqueue n => q.m_packetsUsed < q.m_packetsSize ∧ n ≤ q.m_buffer.unused
  | .enqueueBytes d => q.m_packetsUsed < q.m_packetsSize ∧ d.length ≤ q.m_buffer.unused
  | .dequeue => q.m_packetsOffset < q.m_packetsUsed

instance (q : ContiguousPacketQueue) (op : QueueOp) : Decidable (q.Requires op) := by
  cases op <;> unfold Requires <;> infer_instance

/-- The packet queue states reached from the constructor by calls made
within their contract (`Requires`), whatever their outcome. -/
inductive ReachableWithinContract : ContiguousPacketQueue → Prop where
  | construct (max_packets max_queue_size : Nat) (junkBytes : Nat → UInt8)
      (junkPackets : Nat → Element) (hp : max_packets < SIZE_MOD)
      (hq : max_queue_size < SIZE_MOD) :
      ReachableWithinContract
        (ContiguousPacketQueue.new max_packets max_queue_size junkBytes junkPackets)
  | call (q q' : ContiguousPacketQueue) (op : QueueOp) (hq : ReachableWithinContract q)
      (hpre : q.Requires op) (hstep : (q.step op).state? = some q') :
      ReachableWithinContract q'

end ContiguousPacketQueue

/-! ## Further concrete states -/

/-- Self-test, after line 36: the third `base -= 2;` has drained the buffer
and reset both cursors. -/
def selftestBaseDrained : BufferBase :=
  { selftestBaseFilled with m_bufferUsed := 0 }

/-- State after `BufferBase base(16); base += 16; base -= 2;`. -/
def fullBaseConsumed : BufferBase :=
  { m_bufferOffset := 2, m_bufferUsed := 16, m_bufferSize := 16,
    m_buffer := List.replicate 16 0 }

/-- State after `BufferBase base(3); base += 1;`. -/
def thirdBase : BufferBase :=
  { m_bufferOffset := 0, m_bufferUsed := 1, m_bufferSize := 3,
    m_buffer := List.replicate 3 0 }

/-- Scenario C, after `BufferBase base(16); base += 4;`. -/
def healthBase : BufferBase :=
  { m_bufferOffset := 0, m_bufferUsed := 4, m_bufferSize := 16,
    m_buffer := List.replicate 16 0 }

/-- Scenario C, after the further `base -= 3;`. -/
def healthBaseConsumed : BufferBase :=
  { healthBase with m_bufferOffset := 3 }

/-- Self-test, line 54: `ContiguousPacketQueue queue(8, 64);`. -/
def selftestQueue : ContiguousPacketQueue :=
  ContiguousPacketQueue.new 8 64 zeroBytes sevenPackets

/-- The four packets of scenario D: self-test, lines 55 to 58. -/
def scenarioPackets : List Packet :=
  [.reserve 4, .reserve 8, .bytes [0xFF, 0xFF, 0xFF], .reserve 16]

/-- The five packets of the self-test: lines 55 to 58 and line 67. -/
def selftestPackets : List Packet :=
  [.reserve 4, .reserve 8, .bytes [0xFF, 0xFF, 0xFF], .reserve 16, .reserve 3]

/-- Self-test, after line 67: five packets enqueued, none dequeued. -/
def selftestQueueFive : ContiguousPacketQueue :=
  { m_buffer := { m_bufferOffset := 0, m_bufferUsed := 34, m_bufferSize := 64,
                  m_buffer := List.replicate 12 0 ++ [0xFF, 0xFF, 0xFF] ++ List.replicate 49 0 },
    m_packetsOffset := 0, m_packetsUsed := 5, m_packetsSize := 8,
    m_packets := [{ size := 4 }, { size := 8 }, { size := 3 }, { size := 16 }, { size := 3 },
      { size := 7 }, { size := 7 }, { size := 7 }] }

namespace ContiguousPacketQueue

/-- The queue holds the packets `ps`, none dequeued yet: the counters and the
cursors of the byte buffer say so, record `i` of the ledger is the length of
packet `i`, and the bytes of a packet given as a byte sequence stand in the byte
buffer from index `packetStart ps i` on. -/
def Holds (q : ContiguousPacketQueue) (ps : List Packet) : Prop :=
  q.m_packetsOffset = 0 ∧ q.m_packetsUsed = ps.length ∧
  q.m_buffer.m_bufferOffset = 0 ∧ q.m_buffer.m_bufferUsed = (ps.map Packet.length).sum ∧
  (∀ (i : Nat) (p : Packet), ps[i]? = some p → q.m_packets[i]? = some (Element.mk p.length)) ∧
  (∀ (i : Nat) (d : List UInt8), ps[i]? = some (Packet.bytes d) →
    ∀ j : Nat, j < d.length → q.m_buffer.byteAt (packetStart ps i + j) = d[j]?)

end ContiguousPacketQueue

/-! ## Arithmetic of `std::size_t` -/

theorem subSz_of_le {a b : Nat} (hba : b ≤ a) (ha : a < SIZE_MOD) : subSz a b = a - b := by
  unfold subSz SIZE_MOD at *
  omega

theorem addSz_of_lt {a b : Nat} (h : a + b < SIZE_MOD) : addSz a b = a + b := by
  unfold addSz
  exact Nat.mod_eq_of_lt h

theorem subSz_lt (a b : Nat) : subSz a b < SIZE_MOD := by
  unfold subSz
  exact Nat.mod_lt _ (by unfold SIZE_MOD; omega)

theorem subSz_self {a : Nat} : subSz a a = 0 := by
  unfold subSz SIZE_MOD
  omega

namespace BufferBase

/-! ## The byte buffer keeps its invariant -/

theorem length_copyInto {mem : List UInt8} {pos : Nat} {to_add : List UInt8}
    (h : pos + to_add.length ≤ mem.length) : (copyInto mem pos to_add).length = mem.length := by
  simp only [copyInto, List.length_append, List.length_take, List.length_drop]
  omega

theorem wellFormed_new (size : Nat) (junk : Nat → UInt8) (hsize : size < SIZE_MOD) :
    (BufferBase.new size junk).WellFormed := by
  simp [WellFormed, BufferBase.new, hsize]

theorem unused_of_wellFormed {b : BufferBase} (hb : b.WellFormed) :
    b.unused = b.m_bufferSize - b.m_bufferUsed :=
  subSz_of_le hb.2.1 hb.2.2.1

theorem unconsumed_of_wellFormed {b : BufferBase} (hb : b.WellFormed) :
    b.unconsumed = b.m_bufferUsed - b.m_bufferOffset :=
  subSz_of_le hb.1 (by have := hb.2.1; have := hb.2.2.1; omega)

theorem append_of_le {b : BufferBase} {n : Nat} (h : n ≤ b.unused) :
    b.append n = .ok { b with m_bufferUsed := addSz b.m_bufferUsed n } := by
  simp [append, checkFreeSpace, Nat.not_lt.mpr h]

theorem append_of_gt {b : BufferBase} {n : Nat} (h : n > b.unused) :
    b.append n = .thrown (.overflow b.unused n) b := by
  simp [append, checkFreeSpace, h]

theorem appendBytes_of_gt {b : BufferBase} {d : List UInt8} (h : d.length > b.unused) :
    b.appendBytes d = .thrown (.overflow b.unused d.length) b := by
  simp [appendBytes, checkFreeSpace, h]

theorem appendBytes_of_le {b : BufferBase} {d : List UInt8} (hb : b.WellFormed)
    (h : d.length ≤ b.unused) :
    b.appendBytes d = .ok { b with
      m_buffer := copyInto b.m_buffer b.m_bufferUsed d
      m_bufferUsed := b.m_bufferUsed + d.length } := by
  have hu := unused_of_wellFormed hb
  obtain ⟨_, h2, h3, h4⟩ := hb
  have hsum : b.m_bufferUsed + d.length < SIZE_MOD := by omega
  have hfit : b.m_bufferUsed + d.length ≤ b.m_buffer.length := by omega
  simp [appendBytes, checkFreeSpace, Nat.not_lt.mpr h, hfit, addSz_of_lt hsum]

theorem consume_of_gt {b : BufferBase} {n : Nat} (h : n > b.unconsumed) :
    b.consume n = .thrown (.underflow b.unconsumed n) b := by
  simp [consume, checkConsumableSpace, h]

theorem consume_of_eq {b : BufferBase} {n : Nat} (h : n = b.unconsumed) :
    b.consume n = .ok { b with m_bufferUsed := 0, m_bufferOffset := 0 } := by
  simp [consume, checkConsumableSpace, h]

theorem consume_of_lt {b : BufferBase} {n : Nat} (h : n < b.unconsumed) :
    b.consume n = .ok { b with m_bufferOffset := addSz b.m_bufferOffset n } := by
  simp [consume, checkConsumableSpace, Nat.not_lt.mpr (Nat.le_of_lt h), Nat.ne_of_lt h]

theorem wellFormed_append {b b' : BufferBase} {n : Nat} (hb : b.WellFormed)
    (h : (b.append n).state? = some b') : b'.WellFormed := by
  rcases Nat.lt_or_ge b.unused n with hgt | hle
  · rw [append_of_gt hgt] at h
    simp only [Outcome.state?, Option.some.injEq] at h
    exact h ▸ hb
  · rw [append_of_le hle] at h
    simp only [Outcome.state?, Option.some.injEq] at h
    subst h
    have hu := unused_of_wellFormed hb
    obtain ⟨h1, h2, h3, h4⟩ := hb
    have hsum : b.m_bufferUsed + n < SIZE_MOD := by omega
    simp only [WellFormed, addSz_of_lt hsum]
    omega

theorem wellFormed_appendBytes {b b' : BufferBase} {d : List UInt8} (hb : b.WellFormed)
    (h : (b.appendBytes d).state? = some b') : b'.WellFormed := by
  rcases Nat.lt_or_ge b.unused d.length with hgt | hle
  · rw [appendBytes_of_gt hgt] at h
    simp only [Outcome.state?, Option.some.injEq] at h
    exact h ▸ hb
  · rw [appendBytes_of_le hb hle] at h
    simp only [Outcome.state?, Option.some.injEq] at h
    subst h
    have hu := unused_of_wellFormed hb
    obtain ⟨h1, h2, h3, h4⟩ := hb
    have hlen : (copyInto b.m_buffer b.m_bufferUsed d).length = b.m_buffer.length :=
      length_copyInto (by omega)
    simp only [WellFormed, hlen]
    omega

theorem wellFormed_consume {b b' : BufferBase} {n : Nat} (hb : b.WellFormed)
    (h : (b.consume n).state? = some b') : b'.WellFormed := by
  rcases Nat.lt_trichotomy n b.unconsumed with hlt | heq | hgt
  · rw [consume_of_lt hlt] at h
    simp only [Outcome.state?, Option.some.injEq] at h
    subst h
    have hu := unconsumed_of_wellFormed hb
    obtain ⟨h1, h2, h3, h4⟩ := hb
    have hsum : b.m_bufferOffset + n < SIZE_MOD := by omega
    simp only [WellFormed, addSz_of_lt hsum]
    omega
  · rw [consume_of_eq heq] at h
    simp only [Outcome.state?, Option.some.injEq] at h
    subst h
    obtain ⟨h1, h2, h3, h4⟩ := hb
    simp only [WellFormed]
    omega
  · rw [consume_of_gt hgt] at h
    simp only [Outcome.state?, Option.some.injEq] at h
    exact h ▸ hb

theorem wellFormed_step {b b' : BufferBase} {op : BufOp} (hb : b.WellFormed)
    (h : (b.step op).state? = some b') : b'.WellFormed := by
  cases op with
  | append n => exact wellFormed_append hb h
  | appendBytes d => exact wellFormed_appendBytes hb h
  | consume n => exact wellFormed_consume hb h

theorem wellFormed_of_reachable {b : BufferBase} (h : b.Reachable) : b.WellFormed := by
  induction h with
  | construct size junk hsize => exact wellFormed_new size junk hsize
  | call b b' op _ hstep ih => exact wellFormed_step ih hstep

end BufferBase

/-! ## The packet queue: what each call does -/

theorem take_succ_set {α : Type} (l : List α) (n : Nat) (x : α) (h : n < l.length) :
    (l.set n x).take (n + 1) = l.take n ++ [x] := by
  induction l generalizing n with
  | nil => simp at h
  | cons a t ih =>
    cases n with
    | zero => simp
    | succ k =>
      have hk : k < t.length := by simpa using h
      simp [ih k hk]

namespace ContiguousPacketQueue

theorem recordLength_of_lt {q : ContiguousPacketQueue} {n : Nat}
    (h : q.m_packetsUsed < q.m_packets.length) :
    q.recordLength n = some { q with
      m_packets := q.m_packets.set q.m_packetsUsed { size := n }
      m_packetsUsed := addSz q.m_packetsUsed 1 } := by
  simp [recordLength, h]

theorem recordLength_of_ge {q : ContiguousPacketQueue} {n : Nat}
    (h : q.m_packets.length ≤ q.m_packetsUsed) : q.recordLength n = none := by
  simp [recordLength, Nat.not_lt.mpr h]

theorem enqueue_of_ge {q : ContiguousPacketQueue} {n : Nat}
    (h : q.m_packets.length ≤ q.m_packetsUsed) : q.enqueue n = .undefined := by
  simp [enqueue, recordLength_of_ge h]

theorem enqueueBytes_of_ge {q : ContiguousPacketQueue} {d : List UInt8}
    (h : q.m_packets.length ≤ q.m_packetsUsed) : q.enqueueBytes d = .undefined := by
  simp [enqueueBytes, recordLength_of_ge h]

/-- A throwing `enqueue`: the length is already recorded and counted when the
byte buffer rejects the append. -/
theorem enqueue_of_gt {q : ContiguousPacketQueue} {n : Nat}
    (h : q.m_packetsUsed < q.m_packets.length) (hn : n > q.m_buffer.unused) :
    q.enqueue n = .thrown (.overflow q.m_buffer.unused n) { q with
      m_packets := q.m_packets.set q.m_packetsUsed { size := n }
      m_packetsUsed := addSz q.m_packetsUsed 1 } := by
  simp [enqueue, recordLength_of_lt h, withBuffer, BufferBase.append_of_gt hn]

theorem enqueue_of_le {q : ContiguousPacketQueue} {n : Nat}
    (h : q.m_packetsUsed < q.m_packets.length) (hn : n ≤ q.m_buffer.unused) :
    q.enqueue n = .ok { q with
      m_packets := q.m_packets.set q.m_packetsUsed { size := n }
      m_packetsUsed := addSz q.m_packetsUsed 1
      m_buffer := { q.m_buffer with m_bufferUsed := addSz q.m_buffer.m_bufferUsed n } } := by
  simp [enqueue, recordLength_of_lt h, withBuffer, BufferBase.append_of_le hn]

theorem enqueueBytes_of_le {q : ContiguousPacketQueue} {d : List UInt8}
    (h : q.m_packetsUsed < q.m_packets.length) (hb : q.m_buffer.WellFormed)
    (hn : d.length ≤ q.m_buffer.unused) :
    q.enqueueBytes d = .ok { q with
      m_packets := q.m_packets.set q.m_packetsUsed { size := d.length }
      m_packetsUsed := addSz q.m_packetsUsed 1
      m_buffer := { q.m_buffer with
        m_buffer := BufferBase.copyInto q.m_buffer.m_buffer q.m_buffer.m_bufferUsed d
        m_bufferUsed := q.m_buffer.m_bufferUsed + d.length } } := by
  simp [enqueueBytes, recordLength_of_lt h, withBuffer, BufferBase.appendBytes_of_le hb hn]

theorem enqueueBytes_of_gt {q : ContiguousPacketQueue} {d : List UInt8}
    (h : q.m_packetsUsed < q.m_packets.length) (hn : d.length > q.m_buffer.unused) :
    q.enqueueBytes d = .thrown (.overflow q.m_buffer.unused d.length) { q with
      m_packets := q.m_packets.set q.m_packetsUsed { size := d.length }
      m_packetsUsed := addSz q.m_packetsUsed 1 } := by
  simp [enqueueBytes, recordLength_of_lt h, withBuffer, BufferBase.appendBytes_of_gt hn]

theorem dequeue_of_ge {q : ContiguousPacketQueue}
    (h : q.m_packets.length ≤ q.m_packetsOffset) : q.dequeue = .undefined := by
  simp [dequeue, List.getElem?_eq_none h]

theorem dequeue_of_gt {q : ContiguousPacketQueue} (h : q.m_packetsOffset < q.m_packets.length)
    (hn : q.m_packets[q.m_packetsOffset].size > q.m_buffer.unconsumed) :
    q.dequeue = .thrown
      (.underflow q.m_buffer.unconsumed q.m_packets[q.m_packetsOffset].size) q := by
  simp [dequeue, List.getElem?_eq_getElem h, BufferBase.consume_of_gt hn]

theorem dequeue_of_le {q : ContiguousPacketQueue} (h : q.m_packetsOffset < q.m_packets.length)
    (hn : q.m_packets[q.m_packetsOffset].size ≤ q.m_buffer.unconsumed) :
    ∃ b, q.m_buffer.consume q.m_packets[q.m_packetsOffset].size = .ok b ∧
      q.dequeue =
        if addSz q.m_packetsOffset 1 = q.m_packetsUsed then
          .ok { q with m_buffer := b, m_packetsOffset := 0, m_packetsUsed := 0 }
        else
          .ok { q with m_buffer := b, m_packetsOffset := addSz q.m_packetsOffset 1 } := by
  rcases Nat.lt_or_eq_of_le hn with hlt | heq
  · exact ⟨_, BufferBase.consume_of_lt hlt, by
      simp [dequeue, List.getElem?_eq_getElem h, BufferBase.consume_of_lt hlt]⟩
  · exact ⟨_, BufferBase.consume_of_eq heq, by
      simp [dequeue, List.getElem?_eq_getElem h, BufferBase.consume_of_eq heq]⟩

end ContiguousPacketQueue

/-! ## The packet queue keeps its invariant along returning calls -/

namespace BufferBase

theorem unconsumed_consume {b b' : BufferBase} {n : Nat} (hb : b.WellFormed)
    (hn : n ≤ b.unconsumed) (h : b.consume n = .ok b') :
    b'.unconsumed = b.unconsumed - n := by
  have hu := unconsumed_of_wellFormed hb
  obtain ⟨h1, h2, h3, _⟩ := hb
  rcases Nat.lt_or_eq_of_le hn with hlt | heq
  · rw [consume_of_lt hlt] at h
    cases h
    simp only [unconsumed, subSz, addSz, SIZE_MOD] at *
    omega
  · rw [consume_of_eq heq] at h
    cases h
    simp only [unconsumed, subSz, SIZE_MOD] at *
    omega

end BufferBase

namespace ContiguousPacketQueue

theorem wellFormed_newQueue (max_packets max_queue_size : Nat) (junkBytes : Nat → UInt8)
    (junkPackets : Nat → Element) (hp : max_packets < SIZE_MOD)
    (hq : max_queue_size < SIZE_MOD) :
    (ContiguousPacketQueue.new max_packets max_queue_size junkBytes junkPackets).WellFormed := by
  refine ⟨BufferBase.wellFormed_new _ _ hq, by simp [ContiguousPacketQueue.new], hp, ?_⟩
  simp [Invariant, liveBytes, ContiguousPacketQueue.new, BufferBase.new, BufferBase.unconsumed,
    subSz_self]

/-- Sum of the live lengths once the record at `m_packetsUsed` is written and
counted. -/
theorem liveBytes_record (l : List Element) (off used n : Nat) (hoff : off ≤ used)
    (hused : used < l.length) :
    ((((l.set used { size := n }).take (used + 1)).drop off).map Element.size).sum =
      (((l.take used).drop off).map Element.size).sum + n := by
  have hlen : off ≤ (l.take used).length := by rw [List.length_take]; omega
  rw [take_succ_set l used _ hused, List.drop_append_of_le_length hlen]
  simp

/-- Sum of the live lengths split at the oldest live record. -/
theorem liveBytes_oldest (l : List Element) (off used : Nat) (hoff : off < used)
    (hused : used ≤ l.length) :
    (((l.take used).drop off).map Element.size).sum =
      (l[off]).size + (((l.take used).drop (off + 1)).map Element.size).sum := by
  have hlen : off < (l.take used).length := by rw [List.length_take]; omega
  rw [List.drop_eq_getElem_cons hlen, List.getElem_take]
  simp

theorem wellFormed_record {q : ContiguousPacketQueue} {n : Nat} {b' : BufferBase}
    (hq : q.WellFormed) (h : q.m_packetsUsed < q.m_packets.length) (hb' : b'.WellFormed)
    (hun : b'.unconsumed = q.m_buffer.unconsumed + n) :
    ({ q with
      m_packets := q.m_packets.set q.m_packetsUsed { size := n }
      m_packetsUsed := addSz q.m_packetsUsed 1
      m_buffer := b' } : ContiguousPacketQueue).WellFormed := by
  obtain ⟨_, hlen, hsize, hoff, hused, hlive⟩ := hq
  have hadd : addSz q.m_packetsUsed 1 = q.m_packetsUsed + 1 := addSz_of_lt (by omega)
  refine ⟨hb', by simp [hlen], hsize, ?_, ?_, ?_⟩
  · simp only [hadd]; omega
  · simp only [hadd]; omega
  · simp only [liveBytes, hadd, hun]
    rw [liveBytes_record _ _ _ _ hoff h]
    simp only [liveBytes] at hlive
    omega

theorem wellFormed_enqueue {q q' : ContiguousPacketQueue} {n : Nat} (hq : q.WellFormed)
    (h : q.enqueue n = .ok q') : q'.WellFormed := by
  rcases Nat.lt_or_ge q.m_packetsUsed q.m_packets.length with hlt | hge
  · rcases Nat.lt_or_ge q.m_buffer.unused n with hgt | hle
    · rw [enqueue_of_gt hlt hgt] at h
      cases h
    · rw [enqueue_of_le hlt hle] at h
      cases h
      have hb := hq.1
      have hu := BufferBase.unused_of_wellFormed hb
      have hb' := BufferBase.wellFormed_append hb
        (by rw [BufferBase.append_of_le hle]; rfl)
      refine wellFormed_record hq hlt hb' ?_
      have hc := BufferBase.unconsumed_of_wellFormed hb
      obtain ⟨h1, h2, h3, _⟩ := hb
      have hsum : addSz q.m_buffer.m_bufferUsed n = q.m_buffer.m_bufferUsed + n :=
        addSz_of_lt (by omega)
      show subSz (addSz q.m_buffer.m_bufferUsed n) q.m_buffer.m_bufferOffset = _
      rw [hsum, subSz_of_le (by omega) (by omega), hc]
      omega
  · rw [enqueue_of_ge hge] at h
    cases h

theorem wellFormed_enqueueBytes {q q' : ContiguousPacketQueue} {d : List UInt8}
    (hq : q.WellFormed) (h : q.enqueueBytes d = .ok q') : q'.WellFormed := by
  rcases Nat.lt_or_ge q.m_packetsUsed q.m_packets.length with hlt | hge
  · rcases Nat.lt_or_ge q.m_buffer.unused d.length with hgt | hle
    · rw [enqueueBytes_of_gt hlt hgt] at h
      cases h
    · have hb := hq.1
      rw [enqueueBytes_of_le hlt hb hle] at h
      cases h
      have hu := BufferBase.unused_of_wellFormed hb
      have hb' := BufferBase.wellFormed_appendBytes hb
        (by rw [BufferBase.appendBytes_of_le hb hle]; rfl)
      refine wellFormed_record hq hlt hb' ?_
      have hc := BufferBase.unconsumed_of_wellFormed hb
      obtain ⟨h1, h2, h3, _⟩ := hb
      show subSz (q.m_buffer.m_bufferUsed + d.length) q.m_buffer.m_bufferOffset = _
      rw [subSz_of_le (by omega) (by omega), hc]
      omega
  · rw [enqueueBytes_of_ge hge] at h
    cases h

theorem wellFormed_dequeue {q q' : ContiguousPacketQueue} (hq : q.WellFormed)
    (hlive : q.m_packetsOffset < q.m_packetsUsed) (h : q.dequeue = .ok q') :
    q'.WellFormed := by
  obtain ⟨hb, hlen, hsize, hoff, hused, hsum⟩ := hq
  have hin : q.m_packetsOffset < q.m_packets.length := by omega
  have hsplit := liveBytes_oldest q.m_packets q.m_packetsOffset q.m_packetsUsed hlive
    (by omega)
  simp only [liveBytes] at hsum
  have hle : q.m_packets[q.m_packetsOffset].size ≤ q.m_buffer.unconsumed := by omega
  obtain ⟨b, hcons, hdeq⟩ := dequeue_of_le hin hle
  have hb' := BufferBase.wellFormed_consume hb (by rw [hcons]; rfl)
  have hun := BufferBase.unconsumed_consume hb hle hcons
  have hadd : addSz q.m_packetsOffset 1 = q.m_packetsOffset + 1 := addSz_of_lt (by omega)
  rw [hdeq, hadd] at h
  by_cases hlast : q.m_packetsOffset + 1 = q.m_packetsUsed
  · rw [if_pos hlast] at h
    cases h
    refine ⟨hb', hlen, hsize, Nat.le_refl _, Nat.zero_le _, ?_⟩
    have hnil : ((q.m_packets.take q.m_packetsUsed).drop (q.m_packetsOffset + 1)) = [] := by
      rw [List.drop_eq_nil_iff, List.length_take]; omega
    rw [hnil] at hsplit
    simp only [liveBytes, List.take_zero, List.drop_nil, List.map_nil, List.sum_nil] at *
    omega
  · rw [if_neg hlast] at h
    cases h
    refine ⟨hb', hlen, hsize, ?_, hused, ?_⟩
    · show q.m_packetsOffset + 1 ≤ q.m_packetsUsed
      omega
    · simp only [liveBytes]
      omega

theorem wellFormed_of_reachableReturning {q : ContiguousPacketQueue}
    (h : q.ReachableReturning) : q.WellFormed := by
  induction h with
  | construct mp mq jb jp hp hq => exact wellFormed_newQueue mp mq jb jp hp hq
  | call q q' op _ hlive hstep ih =>
    cases op with
    | enqueue n => exact wellFormed_enqueue ih hstep
    | enqueueBytes d => exact wellFormed_enqueueBytes ih hstep
    | dequeue => exact wellFormed_dequeue ih (hlive rfl) hstep

end ContiguousPacketQueue

/-! ## Claims about the byte buffer -/

/-- C1. In every byte buffer state reachable from the constructor by any
sequence of `append`, `appendBytes` and `consume` calls, failed calls
included, the cursors satisfy
`0 ≤ m_bufferOffset ≤ m_bufferUsed ≤ m_bufferSize`. -/
theorem C1_cursor_invariant (b : BufferBase) (h : b.Reachable) :
    0 ≤ b.m_bufferOffset ∧ b.m_bufferOffset ≤ b.m_bufferUsed ∧
      b.m_bufferUsed ≤ b.m_bufferSize := by
  have hw := BufferBase.wellFormed_of_reachable h
  exact ⟨Nat.zero_le _, hw.1, hw.2.1⟩

/-- C1, at a concrete state: the self-test buffer after `base += 3;
base += {0xFF, 0xFF, 0xFF};`, a failing `base += 11;` and `base -= 2;` is
reachable and its cursors 2, 6 and 16 are ordered. -/
theorem C1_cursor_invariant_witness :
    selftestBaseConsumed.Reachable ∧
    (0 ≤ selftestBaseConsumed.m_bufferOffset ∧
      selftestBaseConsumed.m_bufferOffset ≤ selftestBaseConsumed.m_bufferUsed ∧
      selftestBaseConsumed.m_bufferUsed ≤ selftestBaseConsumed.m_bufferSize) :=
  have h : selftestBaseConsumed.Reachable :=
    .call selftestBaseFilled _ (.consume 2)
      (.call selftestBaseFilled _ (.append 11)
        (.call selftestBaseCommitted _ (.appendBytes [0xFF, 0xFF, 0xFF])
          (.call selftestBase _ (.append 3)
            (.construct 16 zeroBytes (by decide))
            (by decide))
          (by decide))
        (by decide))
      (by decide)
  ⟨h, C1_cursor_invariant selftestBaseConsumed h⟩

/-- C2. `append n` and `appendBytes data` throw the overflow exception exactly
when `n` (the length of `data`) exceeds `unused()`, and a call that throws
leaves the whole object (cursors, capacity and every stored byte) as it was. -/
theorem C2_append_overflow (b : BufferBase) (n : Nat) (data : List UInt8) :
    ((b.append n).failed = true ↔ n > b.unused) ∧
    (n > b.unused → b.append n = .thrown (.overflow b.unused n) b) ∧
    ((b.appendBytes data).failed = true ↔ data.length > b.unused) ∧
    (data.length > b.unused →
      b.appendBytes data = .thrown (.overflow b.unused data.length) b) := by
  refine ⟨?_, fun h => BufferBase.append_of_gt h, ?_, fun h => BufferBase.appendBytes_of_gt h⟩
  · rcases Nat.lt_or_ge b.unused n with hgt | hle
    · simp [BufferBase.append_of_gt hgt, Outcome.failed, hgt]
    · simp [BufferBase.append_of_le hle, Outcome.failed, Nat.not_lt.mpr hle]
  · rcases Nat.lt_or_ge b.unused data.length with hgt | hle
    · simp [BufferBase.appendBytes_of_gt hgt, Outcome.failed, hgt]
    · have hn : ¬ (b.unused < data.length) := Nat.not_lt.mpr hle
      simp only [BufferBase.appendBytes, BufferBase.checkFreeSpace, gt_iff_lt, hn, if_false]
      split <;> simp [Outcome.failed]

/-- C3. `consume n` throws the underflow exception exactly when `n` exceeds
`unconsumed()`, and a call that throws leaves the object, in particular
`m_bufferOffset` and `m_bufferUsed`, as it was. -/
theorem C3_consume_underflow (b : BufferBase) (n : Nat) :
    ((b.consume n).failed = true ↔ n > b.unconsumed) ∧
    (n > b.unconsumed → b.consume n = .thrown (.underflow b.unconsumed n) b) := by
  refine ⟨?_, fun h => BufferBase.consume_of_gt h⟩
  rcases Nat.lt_trichotomy n b.unconsumed with hlt | heq | hgt
  · simp [BufferBase.consume_of_lt hlt, Outcome.failed, Nat.not_lt.mpr (Nat.le_of_lt hlt)]
  · subst heq
    simp [BufferBase.consume_of_eq rfl, Outcome.failed]
  · simp [BufferBase.consume_of_gt hgt, Outcome.failed, hgt]

/-- C4. On a byte buffer whose fields are `std::size_t` values, `consume n`
with `n ≤ unconsumed()` returns normally.  When `n = unconsumed()` it sets both
cursors to 0, so that afterwards `unconsumed() = 0`, `size() = 0` and
`unused() = capacity()`.  Otherwise it advances `m_bufferOffset` by `n` (in
`std::size_t` arithmetic, which is exact when `m_bufferOffset ≤ m_bufferUsed`),
leaves `m_bufferUsed`, `size()` and `unused()` alone, and `unconsumed()` drops
by exactly `n`.  Stored bytes and capacity are untouched in both cases. -/
theorem C4_consume_effect (b : BufferBase) (n : Nat) (hr : b.InRange)
    (hn : n ≤ b.unconsumed) :
    (n = b.unconsumed →
      ∃ b', b.consume n = .ok b' ∧ b'.m_bufferOffset = 0 ∧ b'.m_bufferUsed = 0 ∧
        b'.unconsumed = 0 ∧ b'.size = 0 ∧ b'.unused = b'.capacity ∧
        b'.capacity = b.capacity ∧ b'.m_buffer = b.m_buffer) ∧
    (n ≠ b.unconsumed →
      ∃ b', b.consume n = .ok b' ∧ b'.m_bufferOffset = addSz b.m_bufferOffset n ∧
        (b.m_bufferOffset ≤ b.m_bufferUsed → b'.m_bufferOffset = b.m_bufferOffset + n) ∧
        b'.m_bufferUsed = b.m_bufferUsed ∧ b'.size = b.size ∧ b'.unused = b.unused ∧
        b'.unconsumed = b.unconsumed - n ∧
        b'.capacity = b.capacity ∧ b'.m_buffer = b.m_buffer) := by
  obtain ⟨ho, hu, hs⟩ := hr
  constructor
  · intro heq
    refine ⟨_, BufferBase.consume_of_eq heq, rfl, rfl, ?_, rfl, ?_, rfl, rfl⟩
    · exact subSz_self
    · exact subSz_of_le (Nat.zero_le _) hs
  · intro hne
    have hlt : n < b.unconsumed := Nat.lt_of_le_of_ne hn hne
    refine ⟨_, BufferBase.consume_of_lt hlt, rfl, ?_, rfl, rfl, rfl, ?_, rfl, rfl⟩
    · intro hle
      have hun : b.unconsumed = b.m_bufferUsed - b.m_bufferOffset := subSz_of_le hle hu
      exact addSz_of_lt (by omega)
    · simp only [BufferBase.unconsumed, subSz, addSz, SIZE_MOD] at *
      omega

/-- C4, scenario B of the self-test: from capacity 16 with 6 bytes appended,
three calls `-= 2` leave `unconsumed()` at 4, then 2, then 0 with `size() = 0`
and `unused() = 16`; the first of them is the general statement at that
state. -/
theorem C4_consume_effect_witness :
    (selftestBaseFilled.InRange ∧ 2 ≤ selftestBaseFilled.unconsumed) ∧
    (∃ b', selftestBaseFilled.consume 2 = .ok b' ∧ b'.m_bufferOffset = 0 + 2 ∧
      b'.unconsumed = 6 - 2) ∧
    (selftestBaseFilled.run [.consume 2]).map BufferBase.unconsumed = some 4 ∧
    (selftestBaseFilled.run [.consume 2, .consume 2]).map BufferBase.unconsumed = some 2 ∧
    (selftestBaseFilled.run [.consume 2, .consume 2, .consume 2]).map
      (fun b => (b.unconsumed, b.size, b.unused)) = some (0, 0, 16) := by
  have hr : selftestBaseFilled.InRange := by decide
  have hn : 2 ≤ selftestBaseFilled.unconsumed := by decide
  obtain ⟨b', h1, _, h3, _, _, _, h7, _⟩ :=
    (C4_consume_effect selftestBaseFilled 2 hr hn).2 (by decide)
  exact ⟨⟨hr, hn⟩, ⟨b', h1, h3 (by decide), h7⟩, by decide, by decide, by decide⟩

/-- C5. On a well-formed byte buffer with `m_bufferUsed = u`, `appendBytes data`
with `data.length ≤ unused()` returns normally, moves `m_bufferUsed` to
`u + data.length`, leaves `m_bufferOffset` and the capacity alone, stores
`data[i]` at absolute index `u + i` for every `i < data.length`, and leaves
the byte at every index `j < u` as it was. -/
theorem C5_appendBytes_effect (b : BufferBase) (data : List UInt8) (hb : b.WellFormed)
    (hn : data.length ≤ b.unused) :
    ∃ b', b.appendBytes data = .ok b' ∧
      b'.m_bufferUsed = b.m_bufferUsed + data.length ∧
      b'.m_bufferOffset = b.m_bufferOffset ∧ b'.capacity = b.capacity ∧
      (∀ i, i < data.length → b'.byteAt (b.m_bufferUsed + i) = data[i]?) ∧
      (∀ j, j < b.m_bufferUsed → b'.byteAt j = b.byteAt j) := by
  have hu := BufferBase.unused_of_wellFormed hb
  refine ⟨_, BufferBase.appendBytes_of_le hb hn, rfl, rfl, rfl, ?_, ?_⟩
  · intro i hi
    obtain ⟨_, h2, _, h4⟩ := hb
    have hlen : (b.m_buffer.take b.m_bufferUsed).length = b.m_bufferUsed := by
      rw [List.length_take]; omega
    simp only [BufferBase.byteAt, BufferBase.copyInto, List.append_assoc]
    rw [List.getElem?_append_right (by omega), hlen, Nat.add_sub_cancel_left,
      List.getElem?_append_left hi]
  · intro j hj
    obtain ⟨_, h2, _, h4⟩ := hb
    have hlen : (b.m_buffer.take b.m_bufferUsed).length = b.m_bufferUsed := by
      rw [List.length_take]; omega
    simp only [BufferBase.byteAt, BufferBase.copyInto, List.append_assoc]
    rw [List.getElem?_append_left (by omega), List.getElem?_take_of_lt hj]

/-- C5, scenario A of the self-test: capacity 16, `+= 3`, then
`+= {0xFF, 0xFF, 0xFF}` gives `size() = 6`, `unused() = 10` and the bytes
`0xFF, 0xFF, 0xFF` at absolute indices 3, 4 and 5. -/
theorem C5_appendBytes_effect_witness :
    selftestBase.append 3 = .ok selftestBaseCommitted ∧
    (selftestBaseCommitted.WellFormed ∧
      [0xFF, 0xFF, (0xFF : UInt8)].length ≤ selftestBaseCommitted.unused) ∧
    ∃ b', selftestBaseCommitted.appendBytes [0xFF, 0xFF, 0xFF] = .ok b' ∧
      b'.size = 6 ∧ b'.unused = 10 ∧ b'.m_bufferOffset = 0 ∧
      b'.byteAt 3 = some 0xFF ∧ b'.byteAt 4 = some 0xFF ∧ b'.byteAt 5 = some 0xFF ∧
      b'.byteAt 0 = selftestBaseCommitted.byteAt 0 := by
  have hw : selftestBaseCommitted.WellFormed := by decide
  have hn : [0xFF, 0xFF, (0xFF : UInt8)].length ≤ selftestBaseCommitted.unused := by decide
  obtain ⟨b', h, hused, hoff, hcap, hbytes, hold⟩ :=
    C5_appendBytes_effect selftestBaseCommitted [0xFF, 0xFF, 0xFF] hw hn
  refine ⟨by decide, ⟨hw, hn⟩, b', h, hused, ?_, hoff, hbytes 0 (by decide),
    hbytes 1 (by decide), hbytes 2 (by decide), hold 0 (by decide)⟩
  have hcap' : b'.m_bufferSize = 16 := hcap
  have hused' : b'.m_bufferUsed = 6 := hused
  simp only [BufferBase.unused, hcap', hused']
  decide

/-- C6, at a reachable state that contradicts it: after `BufferBase base(16);
base += 3; base += {0xFF, 0xFF, 0xFF}; base -= 2;` (cursors 2 and 6, four
readable bytes) `operator-()` yields the view that starts at index 2 with
length 6, the value of `m_bufferUsed`, and not length 4, the value of
`unconsumed()`; the view ends at index 8, past `m_bufferUsed`. -/
theorem C6_readableRegion_length_is_used :
    selftestBase.run [.append 3, .appendBytes [0xFF, 0xFF, 0xFF], .consume 2]
      = some selftestBaseConsumed ∧
    selftestBaseConsumed.unconsumed = 4 ∧
    selftestBaseConsumed.readableRegion = { start := 2, len := 6 } ∧
    selftestBaseConsumed.readableRegion ≠
      { start := selftestBaseConsumed.m_bufferOffset, len := selftestBaseConsumed.unconsumed } ∧
    selftestBaseConsumed.readableRegion.start + selftestBaseConsumed.readableRegion.len
      > selftestBaseConsumed.m_bufferUsed := by
  decide

/-! ## Claims about the packet queue -/

/-- C7 as stated fails: after `ContiguousPacketQueue queue(1, 64); queue += 4;`
the ledger is full (`m_packetsUsed = m_packetsSize = 1`), yet neither
`queue += 4` nor `queue += {0xFF}` throws anything: each stores its length at
`m_packets[1]`, outside the one-element ledger. -/
theorem C7_full_queue_counterexample :
    (ContiguousPacketQueue.new 1 64 zeroBytes sevenPackets).enqueue 4 = .ok fullQueue ∧
    fullQueue.m_packetsUsed = fullQueue.m_packetsSize ∧
    (¬ ∃ e, fullQueue.enqueue 4 = .thrown e fullQueue) ∧
    (¬ ∃ e, fullQueue.enqueueBytes [0xFF] = .thrown e fullQueue) ∧
    fullQueue.enqueue 4 = .undefined ∧ fullQueue.enqueueBytes [0xFF] = .undefined := by
  refine ⟨by decide, by decide, ?_, ?_, by decide, by decide⟩
  · rintro ⟨e, h⟩
    have hu : fullQueue.enqueue 4 = .undefined := by decide
    rw [hu] at h
    cases h
  · rintro ⟨e, h⟩
    have hu : fullQueue.enqueueBytes [0xFF] = .undefined := by decide
    rw [hu] at h
    cases h

/-- C7, amended. On a packet queue whose ledger array has `m_packetsSize`
records and whose `m_packetsUsed` equals `m_packetsSize`, `enqueue` and
`enqueueBytes` make no packet-count check: their first statement stores the
length at index `m_packetsUsed`, one past the end of the ledger, for which
the language defines no behaviour. -/
theorem C7_full_queue_unchecked (q : ContiguousPacketQueue) (n : Nat) (data : List UInt8)
    (hlen : q.m_packets.length = q.m_packetsSize)
    (hfull : q.m_packetsUsed = q.m_packetsSize) :
    q.enqueue n = .undefined ∧ q.enqueueBytes data = .undefined := by
  have hge : q.m_packets.length ≤ q.m_packetsUsed := by omega
  exact ⟨ContiguousPacketQueue.enqueue_of_ge hge, ContiguousPacketQueue.enqueueBytes_of_ge hge⟩

/-- C7, amended, at the full queue reached by
`ContiguousPacketQueue queue(1, 64); queue += 4;`, for a length that fits the
byte buffer and for one that does not. -/
theorem C7_full_queue_unchecked_witness :
    (fullQueue.m_packets.length = fullQueue.m_packetsSize ∧
      fullQueue.m_packetsUsed = fullQueue.m_packetsSize) ∧
    (fullQueue.enqueue 9 = .undefined ∧ fullQueue.enqueueBytes [1, 2] = .undefined) ∧
    fullQueue.enqueue 61 = .undefined :=
  ⟨⟨by decide, by decide⟩, C7_full_queue_unchecked fullQueue 9 [1, 2] (by decide) (by decide),
    (C7_full_queue_unchecked fullQueue 61 [] (by decide) (by decide)).1⟩

/-- C8, at an input that contradicts it: on `ContiguousPacketQueue queue(2, 4)`
(`m_packetsUsed = 0 < 2`, four free bytes) `queue += 5` throws the overflow
exception of the byte buffer, but only after `m_packets[0].size = 5` and
`m_packetsUsed = 1` have been written: the ledger now counts a packet of five
bytes of which the byte buffer, itself unchanged, holds none. -/
theorem C8_enqueue_throws_after_recording :
    smallQueue.m_packetsUsed < smallQueue.m_packetsSize ∧
    5 > smallQueue.m_buffer.unused ∧
    smallQueue.enqueue 5 = .thrown (.overflow 4 5) smallQueueAfterThrow ∧
    smallQueue.enqueueBytes [1, 2, 3, 4, 5] = .thrown (.overflow 4 5) smallQueueAfterThrow ∧
    smallQueueAfterThrow ≠ smallQueue ∧
    smallQueue.m_packetsUsed = 0 ∧ smallQueueAfterThrow.m_packetsUsed = 1 ∧
    smallQueue.m_packets[0]? = some { size := 7 } ∧
    smallQueueAfterThrow.m_packets[0]? = some { size := 5 } ∧
    smallQueueAfterThrow.m_packetsOffset = smallQueue.m_packetsOffset ∧
    smallQueueAfterThrow.m_buffer = smallQueue.m_buffer ∧
    smallQueueAfterThrow.liveBytes = 5 ∧ smallQueueAfterThrow.m_buffer.unconsumed = 0 := by
  decide

/-- C9 as stated fails: after `ContiguousPacketQueue queue(2, 16); queue += 0;
--queue;` the queue holds zero packets (`m_packetsUsed = m_packetsOffset = 0`),
yet a further `--queue;` returns normally and moves `m_packetsOffset` to 1,
above `m_packetsUsed`, so that `unconsumed()` reads `2 ^ 64 - 1`. -/
theorem C9_empty_dequeue_counterexample :
    freshQueue.run [.enqueue 0, .dequeue] = some drainedQueue ∧
    drainedQueue.m_packetsUsed = drainedQueue.m_packetsOffset ∧
    drainedQueue.dequeue = .ok overdrainedQueue ∧
    drainedQueue.dequeue.failed = false ∧
    overdrainedQueue.m_packetsOffset = 1 ∧ overdrainedQueue.m_packetsUsed = 0 ∧
    overdrainedQueue.unconsumed = 2 ^ 64 - 1 := by
  decide

/-- C9, amended. On a packet queue holding zero packets whose `m_packetsOffset`
indexes the ledger, `dequeue` makes no packet-count check: it throws exactly
when the length stored at `m_packets[m_packetsOffset]`, a stale or
uninitialised record, exceeds `unconsumed()` of the embedded byte buffer; the
exception is then the underflow exception of the byte buffer and the queue
(counters, ledger and embedded byte buffer) is left as it was. -/
theorem C9_empty_dequeue_fails_only_in_buffer (q : ContiguousPacketQueue)
    (_hempty : q.m_packetsUsed = q.m_packetsOffset)
    (hin : q.m_packetsOffset < q.m_packets.length) :
    (q.dequeue.failed = true ↔
      q.m_packets[q.m_packetsOffset].size > q.m_buffer.unconsumed) ∧
    (q.m_packets[q.m_packetsOffset].size > q.m_buffer.unconsumed →
      q.dequeue = .thrown
        (.underflow q.m_buffer.unconsumed q.m_packets[q.m_packetsOffset].size) q) := by
  refine ⟨?_, fun h => ContiguousPacketQueue.dequeue_of_gt hin h⟩
  rcases Nat.lt_or_ge q.m_buffer.unconsumed q.m_packets[q.m_packetsOffset].size with hgt | hle
  · rw [ContiguousPacketQueue.dequeue_of_gt hin hgt]
    simp [Outcome.failed, hgt]
  · obtain ⟨b, _, hdeq⟩ := ContiguousPacketQueue.dequeue_of_le hin hle
    rw [hdeq]
    have hn : ¬ q.m_packets[q.m_packetsOffset].size > q.m_buffer.unconsumed :=
      Nat.not_lt.mpr hle
    split <;> simp [Outcome.failed, hn]

/-- C9, amended, at the freshly constructed queue `queue(2, 16)` whose ledger
memory reads 7: `--queue` throws the underflow exception of the byte buffer
(0 bytes readable, 7 requested) and leaves the queue as it was. -/
theorem C9_empty_dequeue_fails_only_in_buffer_witness :
    (freshQueue.m_packetsUsed = freshQueue.m_packetsOffset ∧
      freshQueue.m_packetsOffset < freshQueue.m_packets.length) ∧
    freshQueue.dequeue.failed = true ∧
    freshQueue.dequeue = .thrown (.underflow 0 7) freshQueue := by
  have h := C9_empty_dequeue_fails_only_in_buffer freshQueue (by decide) (by decide)
  exact ⟨⟨by decide, by decide⟩, h.1.mpr (by decide), h.2 (by decide)⟩

/-- C10 as stated fails: the state after `ContiguousPacketQueue queue(2, 16);
queue += 0; --queue; --queue;` is reachable (all three calls return), and
there `m_packetsOffset = 1` exceeds `m_packetsUsed = 0`. -/
theorem C10_invariant_counterexample :
    overdrainedQueue.Reachable ∧
    ¬ (0 ≤ overdrainedQueue.m_packetsOffset ∧
        overdrainedQueue.m_packetsOffset ≤ overdrainedQueue.m_packetsUsed ∧
        overdrainedQueue.m_packetsUsed ≤ overdrainedQueue.m_packetsSize ∧
        overdrainedQueue.liveBytes = overdrainedQueue.m_buffer.unconsumed) :=
  ⟨.call drainedQueue _ .dequeue
      (.call zeroPacketQueue _ .dequeue
        (.call freshQueue _ (.enqueue 0)
          (.construct 2 16 zeroBytes sevenPackets (by decide) (by decide))
          (by decide))
        (by decide))
      (by decide),
    by decide⟩

/-- C10, amended. In every packet queue state reached from the constructor by
`enqueue`, `enqueueBytes` and `dequeue` calls that all return normally,
`dequeue` being called only while a packet is live,
`0 ≤ m_packetsOffset ≤ m_packetsUsed ≤ m_packetsSize` holds and the lengths
recorded at the ledger indices `[m_packetsOffset, m_packetsUsed)` add up to
`unconsumed()` of the embedded byte buffer. -/
theorem C10_invariant_along_returning_calls (q : ContiguousPacketQueue)
    (h : q.ReachableReturning) :
    0 ≤ q.m_packetsOffset ∧ q.m_packetsOffset ≤ q.m_packetsUsed ∧
      q.m_packetsUsed ≤ q.m_packetsSize ∧ q.liveBytes = q.m_buffer.unconsumed := by
  obtain ⟨_, _, _, h1, h2, h3⟩ := ContiguousPacketQueue.wellFormed_of_reachableReturning h
  exact ⟨Nat.zero_le _, h1, h2, h3⟩

/-- C10, amended, at the state of the self-test queue after `queue += 4;
queue += 8; queue += {0xFF, 0xFF, 0xFF}; --queue;`: counters 1, 3 and 8, live
lengths 8 + 3 = 11 = 15 - 4. -/
theorem C10_invariant_along_returning_calls_witness :
    busyQueue.ReachableReturning ∧
    (0 ≤ busyQueue.m_packetsOffset ∧ busyQueue.m_packetsOffset ≤ busyQueue.m_packetsUsed ∧
      busyQueue.m_packetsUsed ≤ busyQueue.m_packetsSize ∧
      busyQueue.liveBytes = busyQueue.m_buffer.unconsumed) ∧
    busyQueue.liveBytes = 11 :=
  have h : busyQueue.ReachableReturning :=
    .call _ _ .dequeue
      (.call _ _ (.enqueueBytes [0xFF, 0xFF, 0xFF])
        (.call _ _ (.enqueue 8)
          (.call _ _ (.enqueue 4)
            (.construct 8 64 zeroBytes sevenPackets (by decide) (by decide))
            (by simp)
            rfl)
          (by simp)
          rfl)
        (by simp)
        rfl)
      (fun _ => by decide)
      rfl
  ⟨h, C10_invariant_along_returning_calls busyQueue h, by decide⟩

/-! ## Further facts about the byte buffer -/

namespace BufferBase

/-- Either some byte is still to be consumed or both cursors are zero. -/
theorem noResidue_step {b b' : BufferBase} {op : BufOp} (hb : b.WellFormed)
    (hr : b.m_bufferOffset < b.m_bufferUsed ∨ (b.m_bufferOffset = 0 ∧ b.m_bufferUsed = 0))
    (h : (b.step op).state? = some b') :
    b'.m_bufferOffset < b'.m_bufferUsed ∨ (b'.m_bufferOffset = 0 ∧ b'.m_bufferUsed = 0) := by
  have hu := unused_of_wellFormed hb
  have hc := unconsumed_of_wellFormed hb
  have hw := hb
  obtain ⟨h1, h2, h3, h4⟩ := hb
  cases op with
  | append n =>
    rcases Nat.lt_or_ge b.unused n with hgt | hle
    · simp only [step, append_of_gt hgt, Outcome.state?, Option.some.injEq] at h
      exact h ▸ hr
    · simp only [step, append_of_le hle, Outcome.state?, Option.some.injEq] at h
      subst h
      have hsum : addSz b.m_bufferUsed n = b.m_bufferUsed + n := addSz_of_lt (by omega)
      simp only [hsum]
      omega
  | appendBytes d =>
    rcases Nat.lt_or_ge b.unused d.length with hgt | hle
    · simp only [step, appendBytes_of_gt hgt, Outcome.state?, Option.some.injEq] at h
      exact h ▸ hr
    · simp only [step, appendBytes_of_le hw hle, Outcome.state?, Option.some.injEq] at h
      subst h
      simp only
      omega
  | consume n =>
    rcases Nat.lt_trichotomy n b.unconsumed with hlt | heq | hgt
    · simp only [step, consume_of_lt hlt, Outcome.state?, Option.some.injEq] at h
      subst h
      have hsum : addSz b.m_bufferOffset n = b.m_bufferOffset + n := addSz_of_lt (by omega)
      simp only [hsum]
      omega
    · simp only [step, consume_of_eq heq, Outcome.state?, Option.some.injEq] at h
      subst h
      exact Or.inr ⟨rfl, rfl⟩
    · simp only [step, consume_of_gt hgt, Outcome.state?, Option.some.injEq] at h
      exact h ▸ hr

theorem noResidue_of_reachable {b : BufferBase} (h : b.Reachable) :
    b.m_bufferOffset < b.m_bufferUsed ∨ (b.m_bufferOffset = 0 ∧ b.m_bufferUsed = 0) := by
  induction h with
  | construct size junk hsize => exact Or.inr ⟨rfl, rfl⟩
  | call b b' op hb hstep ih => exact noResidue_step (wellFormed_of_reachable hb) ih hstep

/-- Every call of `consume` leaves a state, with the array and the capacity
of the state before. -/
theorem consume_frame (b : BufferBase) (n : Nat) :
    ∃ b', (b.consume n).state? = some b' ∧ b'.m_buffer = b.m_buffer ∧
      b'.m_bufferSize = b.m_bufferSize := by
  rcases Nat.lt_trichotomy n b.unconsumed with hlt | heq | hgt
  · exact ⟨{ b with m_bufferOffset := addSz b.m_bufferOffset n },
      by rw [consume_of_lt hlt]; rfl, rfl, rfl⟩
  · exact ⟨{ b with m_bufferUsed := 0, m_bufferOffset := 0 },
      by rw [consume_of_eq heq]; rfl, rfl, rfl⟩
  · exact ⟨b, by rw [consume_of_gt hgt]; rfl, rfl, rfl⟩

theorem selftestBaseConsumed_reachable : selftestBaseConsumed.Reachable :=
  .call selftestBaseFilled _ (.consume 2)
    (.call selftestBaseCommitted _ (.appendBytes [0xFF, 0xFF, 0xFF])
      (.call selftestBase _ (.append 3)
        (.construct 16 zeroBytes (by decide))
        (by decide))
      (by decide))
    (by decide)

theorem selftestBaseDrained_reachable : selftestBaseDrained.Reachable :=
  .call _ _ (.consume 2)
    (.call selftestBaseConsumed _ (.consume 2) selftestBaseConsumed_reachable rfl)
    (by decide)

theorem fullBaseConsumed_reachable : fullBaseConsumed.Reachable :=
  .call _ _ (.consume 2)
    (.call selftestBase _ (.append 16) (.construct 16 zeroBytes (by decide)) rfl)
    (by decide)

theorem healthBase_reachable : healthBase.Reachable :=
  .call selftestBase _ (.append 4) (.construct 16 zeroBytes (by decide)) (by decide)

theorem healthBaseConsumed_reachable : healthBaseConsumed.Reachable :=
  .call healthBase _ (.consume 3) healthBase_reachable (by decide)

end BufferBase

/-! ## Rounding to `float` -/

theorem floor_le_roundTiesEven (m : ℚ) : ⌊m⌋ ≤ roundTiesEven m := by
  unfold roundTiesEven
  simp only
  split_ifs <;> omega

theorem roundTiesEven_le_floor_add_one (m : ℚ) : roundTiesEven m ≤ ⌊m⌋ + 1 := by
  unfold roundTiesEven
  simp only
  split_ifs <;> omega

theorem roundTiesEven_intCast (n : ℤ) : roundTiesEven (n : ℚ) = n := by
  unfold roundTiesEven
  simp

theorem roundTiesEven_mono {m m' : ℚ} (h : m ≤ m') : roundTiesEven m ≤ roundTiesEven m' := by
  have hfl : ⌊m⌋ ≤ ⌊m'⌋ := Int.floor_mono h
  rcases lt_or_eq_of_le hfl with hlt | heq
  · have h1 := roundTiesEven_le_floor_add_one m
    have h2 := floor_le_roundTiesEven m'
    omega
  · unfold roundTiesEven
    simp only
    rw [← heq]
    have hd : m - (⌊m⌋ : ℚ) ≤ m' - (⌊m⌋ : ℚ) := by linarith
    split_ifs <;> first | omega | linarith


theorem abs_roundTiesEven_sub_le (m : ℚ) : |(roundTiesEven m : ℚ) - m| ≤ 1 / 2 := by
  have h1 := Int.floor_le m
  have h2 := Int.lt_floor_add_one m
  unfold roundTiesEven
  simp only
  rw [abs_le]
  split_ifs <;> push_cast <;> constructor <;> linarith

theorem roundFloat_of_nonpos {x : ℚ} (h : x ≤ 0) : roundFloat x = 0 := by
  simp [roundFloat, h]

theorem roundFloat_of_pos {x : ℚ} (h : 0 < x) :
    roundFloat x = roundTiesEven (x / 2 ^ (Int.log 2 x - 23)) * 2 ^ (Int.log 2 x - 23) := by
  simp [roundFloat, not_le.mpr h]

/-- The exponent of `x` is the `e` with `2 ^ e ≤ x < 2 ^ (e + 1)`. -/
theorem log_eq_of_binade {x : ℚ} {e : ℤ} (h1 : (2 : ℚ) ^ e ≤ x) (h2 : x < (2 : ℚ) ^ (e + 1)) :
    Int.log 2 x = e := by
  have hx : 0 < x := lt_of_lt_of_le (by positivity) h1
  have hle : e ≤ Int.log 2 x :=
    (Int.zpow_le_iff_le_log (by norm_num) hx).mp (by exact_mod_cast h1)
  have hlt : Int.log 2 x < e + 1 :=
    (Int.lt_zpow_iff_log_lt (by norm_num) hx).mp (by exact_mod_cast h2)
  omega

theorem roundFloat_of_binade {x : ℚ} {e : ℤ} (h1 : (2 : ℚ) ^ e ≤ x)
    (h2 : x < (2 : ℚ) ^ (e + 1)) :
    roundFloat x = roundTiesEven (x / 2 ^ (e - 23)) * 2 ^ (e - 23) := by
  have hx : 0 < x := lt_of_lt_of_le (by positivity) h1
  rw [roundFloat_of_pos hx, log_eq_of_binade h1 h2]

/-- A rounded number stays in the closed binade of the number. -/
theorem roundFloat_binade {x : ℚ} (hx : 0 < x) :
    (2 : ℚ) ^ Int.log 2 x ≤ roundFloat x ∧ roundFloat x ≤ (2 : ℚ) ^ (Int.log 2 x + 1) := by
  have h1 : (2 : ℚ) ^ Int.log 2 x ≤ x := by
    have := Int.zpow_log_le_self (b := 2) (by norm_num) hx
    exact_mod_cast this
  have h2 : x < (2 : ℚ) ^ (Int.log 2 x + 1) := by
    have := Int.lt_zpow_succ_log_self (b := 2) (by norm_num) x
    exact_mod_cast this
  have hulp : (0 : ℚ) < 2 ^ (Int.log 2 x - 23) := by positivity
  have e1 : (2 : ℚ) ^ Int.log 2 x = 2 ^ (23 : ℤ) * 2 ^ (Int.log 2 x - 23) := by
    rw [← zpow_add₀ (by norm_num)]; congr 1; omega
  have e2 : (2 : ℚ) ^ (Int.log 2 x + 1) = 2 ^ (24 : ℤ) * 2 ^ (Int.log 2 x - 23) := by
    rw [← zpow_add₀ (by norm_num)]; congr 1; omega
  have hlow : ((2 ^ 23 : ℤ) : ℚ) ≤ x / 2 ^ (Int.log 2 x - 23) := by
    rw [le_div_iff₀ hulp]
    calc ((2 ^ 23 : ℤ) : ℚ) * 2 ^ (Int.log 2 x - 23)
        = 2 ^ (23 : ℤ) * 2 ^ (Int.log 2 x - 23) := by norm_num
      _ = 2 ^ Int.log 2 x := e1.symm
      _ ≤ x := h1
  have hhigh : x / 2 ^ (Int.log 2 x - 23) ≤ ((2 ^ 24 : ℤ) : ℚ) := by
    rw [div_le_iff₀ hulp]
    calc x ≤ 2 ^ (Int.log 2 x + 1) := le_of_lt h2
      _ = 2 ^ (24 : ℤ) * 2 ^ (Int.log 2 x - 23) := e2
      _ = ((2 ^ 24 : ℤ) : ℚ) * 2 ^ (Int.log 2 x - 23) := by norm_num
  have r1 := roundTiesEven_mono hlow
  have r2 := roundTiesEven_mono hhigh
  rw [roundTiesEven_intCast] at r1 r2
  have q1 : ((2 ^ 23 : ℤ) : ℚ) ≤ (roundTiesEven (x / 2 ^ (Int.log 2 x - 23)) : ℚ) := by
    exact_mod_cast r1
  have q2 : (roundTiesEven (x / 2 ^ (Int.log 2 x - 23)) : ℚ) ≤ ((2 ^ 24 : ℤ) : ℚ) := by
    exact_mod_cast r2
  rw [roundFloat_of_pos hx]
  constructor
  · calc (2 : ℚ) ^ Int.log 2 x = ((2 ^ 23 : ℤ) : ℚ) * 2 ^ (Int.log 2 x - 23) := by
          rw [e1]; norm_num
      _ ≤ _ := mul_le_mul_of_nonneg_right q1 (le_of_lt hulp)
  · calc _ ≤ ((2 ^ 24 : ℤ) : ℚ) * 2 ^ (Int.log 2 x - 23) :=
          mul_le_mul_of_nonneg_right q2 (le_of_lt hulp)
      _ = (2 : ℚ) ^ (Int.log 2 x + 1) := by rw [e2]; norm_num

theorem roundFloat_nonneg (x : ℚ) : 0 ≤ roundFloat x := by
  rcases le_or_lt x 0 with h | h
  · rw [roundFloat_of_nonpos h]
  · exact le_trans (by positivity) (roundFloat_binade h).1

theorem roundFloat_mono {x y : ℚ} (h : x ≤ y) : roundFloat x ≤ roundFloat y := by
  rcases le_or_lt x 0 with hx | hx
  · rw [roundFloat_of_nonpos hx]
    exact roundFloat_nonneg y
  · have hy : 0 < y := lt_of_lt_of_le hx h
    have hlog : Int.log 2 x ≤ Int.log 2 y := Int.log_mono_right hx h
    rcases lt_or_eq_of_le hlog with hlt | heq
    · calc roundFloat x ≤ (2 : ℚ) ^ (Int.log 2 x + 1) := (roundFloat_binade hx).2
        _ ≤ (2 : ℚ) ^ Int.log 2 y := zpow_le_zpow_right₀ (by norm_num) (by omega)
        _ ≤ roundFloat y := (roundFloat_binade hy).1
    · rw [roundFloat_of_pos hx, roundFloat_of_pos hy, heq]
      have hulp : (0 : ℚ) < 2 ^ (Int.log 2 y - 23) := by positivity
      have hm : x / 2 ^ (Int.log 2 y - 23) ≤ y / 2 ^ (Int.log 2 y - 23) :=
        div_le_div_of_nonneg_right h (le_of_lt hulp)
      have := roundTiesEven_mono hm
      exact mul_le_mul_of_nonneg_right (by exact_mod_cast this) (le_of_lt hulp)

/-- Powers of two are `float` values. -/
theorem roundFloat_zpow (k : ℤ) : roundFloat ((2 : ℚ) ^ k) = 2 ^ k := by
  have h1 : (2 : ℚ) ^ k ≤ 2 ^ k := le_refl _
  have h2 : (2 : ℚ) ^ k < 2 ^ (k + 1) := zpow_lt_zpow_right₀ (by norm_num) (by omega)
  rw [roundFloat_of_binade h1 h2]
  have hm : (2 : ℚ) ^ k / 2 ^ (k - 23) = ((2 ^ 23 : ℤ) : ℚ) := by
    rw [← zpow_sub₀ (by norm_num)]
    have : k - (k - 23) = 23 := by omega
    rw [this]; norm_num
  rw [hm, roundTiesEven_intCast]
  have : (2 : ℚ) ^ k = 2 ^ (23 : ℤ) * 2 ^ (k - 23) := by
    rw [← zpow_add₀ (by norm_num)]; congr 1; omega
  rw [this]; norm_num

theorem roundFloat_one : roundFloat 1 = 1 := by
  have := roundFloat_zpow 0
  simpa using this

/-- Rounding moves a number by at most the fraction `2 ^ (-24)` of it. -/
theorem abs_roundFloat_sub_le {x : ℚ} (hx : 0 ≤ x) :
    |roundFloat x - x| ≤ x * 2 ^ (-24 : ℤ) := by
  rcases eq_or_lt_of_le hx with h0 | hpos
  · rw [← h0, roundFloat_of_nonpos (le_refl _)]; simp
  · have h1 : (2 : ℚ) ^ Int.log 2 x ≤ x := by
      have := Int.zpow_log_le_self (b := 2) (by norm_num) hpos
      exact_mod_cast this
    have hulp : (0 : ℚ) < 2 ^ (Int.log 2 x - 23) := by positivity
    have hm := abs_roundTiesEven_sub_le (x / 2 ^ (Int.log 2 x - 23))
    rw [roundFloat_of_pos hpos]
    have hrew : (roundTiesEven (x / 2 ^ (Int.log 2 x - 23)) : ℚ) * 2 ^ (Int.log 2 x - 23) - x
        = ((roundTiesEven (x / 2 ^ (Int.log 2 x - 23)) : ℚ) - x / 2 ^ (Int.log 2 x - 23))
          * 2 ^ (Int.log 2 x - 23) := by
      field_simp
    rw [hrew, abs_mul, abs_of_pos hulp]
    have hhalf : (1 / 2 : ℚ) * 2 ^ (Int.log 2 x - 23) = 2 ^ Int.log 2 x * 2 ^ (-24 : ℤ) := by
      rw [← zpow_add₀ (by norm_num)]
      have : Int.log 2 x + -24 = -1 + (Int.log 2 x - 23) := by omega
      rw [this, zpow_add₀ (by norm_num)]
      norm_num
    calc _ ≤ (1 / 2 : ℚ) * 2 ^ (Int.log 2 x - 23) :=
          mul_le_mul_of_nonneg_right hm (le_of_lt hulp)
      _ = 2 ^ Int.log 2 x * 2 ^ (-24 : ℤ) := hhalf
      _ ≤ x * 2 ^ (-24 : ℤ) := mul_le_mul_of_nonneg_right h1 (by positivity)


theorem roundTiesEven_of_lt_half {m : ℚ} (f : ℤ) (h1 : (f : ℚ) ≤ m) (h2 : m < f + 1 / 2) :
    roundTiesEven m = f := by
  have hf : ⌊m⌋ = f := Int.floor_eq_iff.mpr ⟨h1, by linarith⟩
  unfold roundTiesEven
  simp only [hf]
  rw [if_pos (by linarith)]

theorem roundTiesEven_of_gt_half {m : ℚ} (f : ℤ) (h1 : (f : ℚ) + 1 / 2 < m) (h2 : m < f + 1) :
    roundTiesEven m = f + 1 := by
  have hf : ⌊m⌋ = f := Int.floor_eq_iff.mpr ⟨by linarith, h2⟩
  unfold roundTiesEven
  simp only [hf]
  rw [if_neg (by linarith), if_pos (by linarith)]

/-- Every natural number below `2 ^ 24` is a `float` value. -/
theorem roundFloat_natCast_of_lt (n : ℕ) (h : n < 2 ^ 24) : roundFloat (n : ℚ) = n := by
  rcases Nat.eq_zero_or_pos n with h0 | hpos
  · subst h0
    simp [roundFloat]
  · have hx : (0 : ℚ) < n := by exact_mod_cast hpos
    have hlog : Int.log 2 (n : ℚ) < 24 := by
      apply (Int.lt_zpow_iff_log_lt (by norm_num) hx).mp
      norm_num
      exact h
    obtain ⟨k, hk⟩ : ∃ k : ℕ, (k : ℤ) = 23 - Int.log 2 (n : ℚ) := ⟨(23 - Int.log 2 (n : ℚ)).toNat,
      by omega⟩
    have hexp : Int.log 2 (n : ℚ) - 23 = -(k : ℤ) := by omega
    have hm : (n : ℚ) / 2 ^ (Int.log 2 (n : ℚ) - 23) = (((n * 2 ^ k : ℕ) : ℤ) : ℚ) := by
      rw [hexp, zpow_neg, zpow_natCast, div_inv_eq_mul]
      push_cast
      ring
    rw [roundFloat_of_pos hx, hm, roundTiesEven_intCast, hexp, zpow_neg, zpow_natCast]
    push_cast
    field_simp

/-- The quotient of two rounded natural numbers, rounded, is within the
fraction `2 ^ (-22)` of the exact quotient. -/
theorem abs_roundFloat_div_sub_le (u c : ℕ) (hc : 0 < c) :
    |roundFloat (roundFloat u / roundFloat c) - (u : ℚ) / c| ≤ (u : ℚ) / c * 2 ^ (-22 : ℤ) := by
  have hcq : (0 : ℚ) < c := by exact_mod_cast hc
  have huq : (0 : ℚ) ≤ u := Nat.cast_nonneg u
  have hC1 : (1 : ℚ) ≤ roundFloat c := by
    have h1 : (1 : ℚ) ≤ c := by exact_mod_cast hc
    have := roundFloat_mono h1
    rwa [roundFloat_one] at this
  have hCpos : (0 : ℚ) < roundFloat c := lt_of_lt_of_le one_pos hC1
  have hU := abs_le.mp (abs_roundFloat_sub_le huq)
  have hC := abs_le.mp (abs_roundFloat_sub_le (le_of_lt hcq))
  have hq0 : (0 : ℚ) ≤ roundFloat u / roundFloat c :=
    div_nonneg (roundFloat_nonneg _) (le_of_lt hCpos)
  have hF := abs_le.mp (abs_roundFloat_sub_le hq0)
  have hqC : roundFloat u / roundFloat c * roundFloat c = roundFloat u :=
    div_mul_cancel₀ _ (ne_of_gt hCpos)
  have he : (2 : ℚ) ^ (-24 : ℤ) = 1 / 16777216 := by norm_num
  have he' : (2 : ℚ) ^ (-22 : ℤ) = 4 * (1 / 16777216) := by norm_num
  rw [he] at hU hC hF
  rw [he']
  set q := roundFloat u / roundFloat c with hq
  set F := roundFloat q with hFdef
  set U := roundFloat (u : ℚ) with hUdef
  set C := roundFloat (c : ℚ) with hCdef
  have hup1 : q * (c * (1 - 1 / 16777216)) ≤ u * (1 + 1 / 16777216) := by
    have : q * (c * (1 - 1 / 16777216)) ≤ q * C :=
      mul_le_mul_of_nonneg_left (by linarith) hq0
    linarith
  have hlo1 : (u : ℚ) * (1 - 1 / 16777216) ≤ q * (c * (1 + 1 / 16777216)) := by
    have : q * C ≤ q * (c * (1 + 1 / 16777216)) :=
      mul_le_mul_of_nonneg_left (by linarith) hq0
    linarith
  have hFc_up : F * c ≤ u * (1 + 4 * (1 / 16777216)) := by
    have hFq : F * c ≤ q * (1 + 1 / 16777216) * c :=
      mul_le_mul_of_nonneg_right (by linarith) (le_of_lt hcq)
    nlinarith
  have hFc_lo : (u : ℚ) * (1 - 4 * (1 / 16777216)) ≤ F * c := by
    have hFq : q * (1 - 1 / 16777216) * c ≤ F * c :=
      mul_le_mul_of_nonneg_right (by linarith) (le_of_lt hcq)
    nlinarith
  have hr : (u : ℚ) / c * c = u := div_mul_cancel₀ _ (ne_of_gt hcq)
  rw [abs_le]
  constructor
  · have h : ((u : ℚ) / c * (1 - 4 * (1 / 16777216))) * c ≤ F * c := by
      rw [mul_right_comm, hr]
      exact hFc_lo
    have := le_of_mul_le_mul_right h hcq
    linarith
  · have h : F * c ≤ ((u : ℚ) / c * (1 + 4 * (1 / 16777216))) * c := by
      rw [mul_right_comm, hr]
      exact hFc_up
    have := le_of_mul_le_mul_right h hcq
    linarith

theorem roundFloat_third : roundFloat (1 / 3) = 11184811 / 33554432 := by
  have h1 : (2 : ℚ) ^ (-2 : ℤ) ≤ 1 / 3 := by norm_num
  have h2 : (1 / 3 : ℚ) < 2 ^ ((-2 : ℤ) + 1) := by norm_num
  rw [roundFloat_of_binade h1 h2]
  have hm : roundTiesEven ((1 / 3 : ℚ) / 2 ^ ((-2 : ℤ) - 23)) = 11184810 + 1 :=
    roundTiesEven_of_gt_half 11184810 (by norm_num) (by norm_num)
  rw [hm]
  norm_num

theorem thirdBase_reachable : thirdBase.Reachable :=
  .call (BufferBase.new 3 zeroBytes) _ (.append 1) (.construct 3 zeroBytes (by decide))
    (by decide)

/-! ## Further claims about the byte buffer -/

/-- C15. Moving a byte buffer or a packet queue leaves the source reporting
`capacity() = size() = unused() = unconsumed() = 0` (for a queue, with both
packet counters zero and its embedded byte buffer zeroed as well), and the
object constructed is equal to the source as it was before: same capacity,
cursors and stored bytes and, for a queue, same ledger and same embedded byte
buffer. -/
theorem C15_move_semantics (b : BufferBase) (q : ContiguousPacketQueue) :
    (b.move.1 = b ∧
      b.move.2.capacity = 0 ∧ b.move.2.size = 0 ∧ b.move.2.unused = 0 ∧
      b.move.2.unconsumed = 0 ∧ b.move.2.m_bufferOffset = 0 ∧ b.move.2.m_buffer = []) ∧
    (q.move.1 = q ∧
      q.move.2.capacity = 0 ∧ q.move.2.size = 0 ∧ q.move.2.unused = 0 ∧
      q.move.2.unconsumed = 0 ∧ q.move.2.m_packetsOffset = 0 ∧ q.move.2.m_packetsUsed = 0 ∧
      q.move.2.m_packets = [] ∧
      q.move.2.GetBuffer.capacity = 0 ∧ q.move.2.GetBuffer.size = 0 ∧
      q.move.2.GetBuffer.unused = 0 ∧ q.move.2.GetBuffer.unconsumed = 0 ∧
      q.move.2.GetBuffer.m_bufferOffset = 0) := by
  have hz : subSz 0 0 = 0 := subSz_self
  refine ⟨⟨rfl, rfl, rfl, hz, hz, rfl, rfl⟩, ⟨rfl, rfl, rfl, hz, hz, rfl, rfl, rfl, rfl, rfl, hz, hz,
    rfl⟩⟩

/-- C16. Whatever `n` is and whatever the state, `consume n` leaves a state
(it returns or throws) in which every byte of the array reads as before, at
every absolute index, and the capacity is the same: this holds when the call
throws, when it advances `m_bufferOffset` and when it resets both cursors. -/
theorem C16_consume_keeps_bytes (b : BufferBase) (n : Nat) :
    ∃ b', (b.consume n).state? = some b' ∧ b'.capacity = b.capacity ∧
      b'.m_buffer = b.m_buffer ∧ ∀ i, b'.byteAt i = b.byteAt i := by
  obtain ⟨b', h, hmem, hsize⟩ := BufferBase.consume_frame b n
  exact ⟨b', h, hsize, hmem, fun i => by simp only [BufferBase.byteAt, hmem]⟩

/-- C17 as stated fails: after `BufferBase base(3); base += 1;` (reachable,
capacity 3) `getHealth()` and `getConsumeHealth()` return the `float` nearest
to 1/3, which is 11184811/33554432 and not the rational 1/3. -/
theorem C17_health_counterexample :
    thirdBase.Reachable ∧ 0 < thirdBase.capacity ∧
    thirdBase.getHealth = some (11184811 / 33554432) ∧
    thirdBase.getConsumeHealth = some (11184811 / 33554432) ∧
    thirdBase.getHealth ≠ some ((thirdBase.m_bufferUsed : ℚ) / (thirdBase.m_bufferSize : ℚ)) ∧
    thirdBase.getConsumeHealth ≠
      some (((thirdBase.m_bufferUsed : ℚ) - (thirdBase.m_bufferOffset : ℚ))
        / (thirdBase.m_bufferSize : ℚ)) := by
  have h1 : toFloat 1 = 1 := by
    have := roundFloat_natCast_of_lt 1 (by norm_num)
    simpa [toFloat] using this
  have h3 : toFloat 3 = 3 := by
    have := roundFloat_natCast_of_lt 3 (by norm_num)
    simpa [toFloat] using this
  have hu : thirdBase.unconsumed = 1 := by decide
  have e1 : thirdBase.getHealth = some (11184811 / 33554432) := by
    show divFloat (toFloat 1) (toFloat 3) = _
    rw [h1, h3, divFloat, if_neg (by norm_num), roundFloat_third]
  have e2 : thirdBase.getConsumeHealth = some (11184811 / 33554432) := by
    show divFloat (toFloat thirdBase.unconsumed) (toFloat 3) = _
    rw [hu, h1, h3, divFloat, if_neg (by norm_num), roundFloat_third]
  refine ⟨thirdBase_reachable, by decide, e1, e2, ?_, ?_⟩
  · rw [e1]
    simp only [thirdBase]
    norm_num
  · rw [e2]
    simp only [thirdBase]
    norm_num

/-- C17, amended. In every reachable byte buffer state with `capacity() > 0`,
`getHealth()` is the `float` quotient of the `float` conversions of
`m_bufferUsed` and `m_bufferSize`, and `getConsumeHealth()` that of
`m_bufferUsed - m_bufferOffset` and `m_bufferSize`.  Each lies within the
fraction `2 ^ (-22)` of the exact ratio, equals the exact ratio when the two
operands and the ratio are `float` values, and
`0 ≤ getConsumeHealth() ≤ getHealth() ≤ 1`. -/
theorem C17_health_ratios (b : BufferBase) (h : b.Reachable) (hcap : 0 < b.capacity) :
    ∃ fill cons : ℚ, b.getHealth = some fill ∧ b.getConsumeHealth = some cons ∧
      fill = roundFloat (roundFloat (b.m_bufferUsed : ℚ) / roundFloat (b.m_bufferSize : ℚ)) ∧
      cons = roundFloat (roundFloat ((b.m_bufferUsed - b.m_bufferOffset : ℕ) : ℚ)
        / roundFloat (b.m_bufferSize : ℚ)) ∧
      |fill - (b.m_bufferUsed : ℚ) / (b.m_bufferSize : ℚ)|
        ≤ (b.m_bufferUsed : ℚ) / (b.m_bufferSize : ℚ) * 2 ^ (-22 : ℤ) ∧
      |cons - ((b.m_bufferUsed : ℚ) - (b.m_bufferOffset : ℚ)) / (b.m_bufferSize : ℚ)|
        ≤ ((b.m_bufferUsed : ℚ) - (b.m_bufferOffset : ℚ)) / (b.m_bufferSize : ℚ)
          * 2 ^ (-22 : ℤ) ∧
      (roundFloat (b.m_bufferUsed : ℚ) = b.m_bufferUsed →
        roundFloat (b.m_bufferSize : ℚ) = b.m_bufferSize →
        roundFloat ((b.m_bufferUsed : ℚ) / (b.m_bufferSize : ℚ))
          = (b.m_bufferUsed : ℚ) / (b.m_bufferSize : ℚ) →
        fill = (b.m_bufferUsed : ℚ) / (b.m_bufferSize : ℚ)) ∧
      (roundFloat ((b.m_bufferUsed : ℚ) - (b.m_bufferOffset : ℚ))
          = (b.m_bufferUsed : ℚ) - (b.m_bufferOffset : ℚ) →
        roundFloat (b.m_bufferSize : ℚ) = b.m_bufferSize →
        roundFloat (((b.m_bufferUsed : ℚ) - (b.m_bufferOffset : ℚ)) / (b.m_bufferSize : ℚ))
          = ((b.m_bufferUsed : ℚ) - (b.m_bufferOffset : ℚ)) / (b.m_bufferSize : ℚ) →
        cons = ((b.m_bufferUsed : ℚ) - (b.m_bufferOffset : ℚ)) / (b.m_bufferSize : ℚ)) ∧
      0 ≤ cons ∧ cons ≤ fill ∧ fill ≤ 1 := by
  have hw := BufferBase.wellFormed_of_reachable h
  have hun := BufferBase.unconsumed_of_wellFormed hw
  obtain ⟨h1, h2, _, _⟩ := hw
  have hsz : 0 < b.m_bufferSize := hcap
  have hone : (1 : ℚ) ≤ (b.m_bufferSize : ℚ) := by exact_mod_cast hsz
  have hC1 : (1 : ℚ) ≤ roundFloat (b.m_bufferSize : ℚ) := by
    have := roundFloat_mono hone
    rwa [roundFloat_one] at this
  have hCpos : (0 : ℚ) < roundFloat (b.m_bufferSize : ℚ) := lt_of_lt_of_le one_pos hC1
  have hcast : ((b.m_bufferUsed - b.m_bufferOffset : ℕ) : ℚ)
      = (b.m_bufferUsed : ℚ) - (b.m_bufferOffset : ℚ) := Nat.cast_sub h1
  have hle1 : ((b.m_bufferUsed - b.m_bufferOffset : ℕ) : ℚ) ≤ (b.m_bufferUsed : ℚ) := by
    exact_mod_cast Nat.sub_le _ _
  have hle2 : (b.m_bufferUsed : ℚ) ≤ (b.m_bufferSize : ℚ) := by exact_mod_cast h2
  have hU := roundFloat_mono hle1
  have hS := roundFloat_mono hle2
  have hN : (0 : ℚ) ≤ roundFloat ((b.m_bufferUsed - b.m_bufferOffset : ℕ) : ℚ) :=
    roundFloat_nonneg _
  have efill : b.getHealth = some (roundFloat (roundFloat (b.m_bufferUsed : ℚ)
      / roundFloat (b.m_bufferSize : ℚ))) := by
    simp only [BufferBase.getHealth, toFloat, divFloat, if_neg (ne_of_gt hCpos)]
  have econs : b.getConsumeHealth = some (roundFloat
      (roundFloat ((b.m_bufferUsed - b.m_bufferOffset : ℕ) : ℚ)
        / roundFloat (b.m_bufferSize : ℚ))) := by
    simp only [BufferBase.getConsumeHealth, toFloat, divFloat, if_neg (ne_of_gt hCpos), hun]
  have b1 := abs_roundFloat_div_sub_le b.m_bufferUsed b.m_bufferSize hsz
  have b2 := abs_roundFloat_div_sub_le (b.m_bufferUsed - b.m_bufferOffset) b.m_bufferSize hsz
  rw [hcast] at b2
  refine ⟨_, _, efill, econs, rfl, rfl, b1, by rw [hcast]; exact b2, ?_, ?_, ?_, ?_, ?_⟩
  · intro e1 e2 e3
    rw [e1, e2, e3]
  · intro e1 e2 e3
    rw [hcast, e1, e2, e3]
  · exact roundFloat_nonneg _
  · exact roundFloat_mono (div_le_div_of_nonneg_right hU (le_of_lt hCpos))
  · have hq : roundFloat (b.m_bufferUsed : ℚ) / roundFloat (b.m_bufferSize : ℚ) ≤ 1 :=
      (div_le_one hCpos).mpr hS
    have := roundFloat_mono hq
    rwa [roundFloat_one] at this

/-- C17, amended, scenario C of the self-test: on a buffer of capacity 16,
after `+= 4` both ratios are 1/4, and after the further `-= 3` `getHealth()`
is 1/4 and `getConsumeHealth()` is 1/16; these ratios are `float` values. -/
theorem C17_health_ratios_witness :
    (healthBaseConsumed.Reachable ∧ 0 < healthBaseConsumed.capacity) ∧
    selftestBase.run [.append 4] = some healthBase ∧
    healthBase.getHealth = some (1 / 4) ∧ healthBase.getConsumeHealth = some (1 / 4) ∧
    selftestBase.run [.append 4, .consume 3] = some healthBaseConsumed ∧
    healthBaseConsumed.getHealth = some (1 / 4) ∧
    healthBaseConsumed.getConsumeHealth = some (1 / 16) := by
  have r1 : roundFloat ((1 : ℕ) : ℚ) = ((1 : ℕ) : ℚ) := roundFloat_natCast_of_lt 1 (by norm_num)
  have r4 : roundFloat ((4 : ℕ) : ℚ) = ((4 : ℕ) : ℚ) := roundFloat_natCast_of_lt 4 (by norm_num)
  have r16 : roundFloat ((16 : ℕ) : ℚ) = ((16 : ℕ) : ℚ) :=
    roundFloat_natCast_of_lt 16 (by norm_num)
  have q4 : roundFloat (((4 : ℕ) : ℚ) / ((16 : ℕ) : ℚ)) = ((4 : ℕ) : ℚ) / ((16 : ℕ) : ℚ) := by
    have := roundFloat_zpow (-2)
    norm_num at this ⊢
    exact this
  have q16 : roundFloat ((((4 : ℕ) : ℚ) - ((3 : ℕ) : ℚ)) / ((16 : ℕ) : ℚ))
      = (((4 : ℕ) : ℚ) - ((3 : ℕ) : ℚ)) / ((16 : ℕ) : ℚ) := by
    have := roundFloat_zpow (-4)
    norm_num at this ⊢
    exact this
  have q40 : roundFloat ((((4 : ℕ) : ℚ) - ((0 : ℕ) : ℚ)) / ((16 : ℕ) : ℚ))
      = (((4 : ℕ) : ℚ) - ((0 : ℕ) : ℚ)) / ((16 : ℕ) : ℚ) := by
    have := roundFloat_zpow (-2)
    norm_num at this ⊢
    exact this
  have s40 : roundFloat (((4 : ℕ) : ℚ) - ((0 : ℕ) : ℚ)) = ((4 : ℕ) : ℚ) - ((0 : ℕ) : ℚ) := by
    have := r4
    norm_num at this ⊢
    exact this
  have s43 : roundFloat (((4 : ℕ) : ℚ) - ((3 : ℕ) : ℚ)) = ((4 : ℕ) : ℚ) - ((3 : ℕ) : ℚ) := by
    have := r1
    norm_num at this ⊢
    exact this
  have hr := BufferBase.healthBaseConsumed_reachable
  have hcap : 0 < healthBaseConsumed.capacity := by decide
  obtain ⟨fill, cons, hf, hc, _, _, _, _, xf, xc, _, _, _⟩ :=
    C17_health_ratios healthBaseConsumed hr hcap
  obtain ⟨fill0, cons0, hf0, hc0, _, _, _, _, xf0, xc0, _, _, _⟩ :=
    C17_health_ratios healthBase BufferBase.healthBase_reachable (by decide)
  have ef : fill = 1 / 4 := by
    rw [xf r4 r16 q4]
    simp only [healthBaseConsumed, healthBase]
    norm_num
  have ec : cons = 1 / 16 := by
    rw [xc s43 r16 q16]
    simp only [healthBaseConsumed, healthBase]
    norm_num
  have ef0 : fill0 = 1 / 4 := by
    rw [xf0 r4 r16 q4]
    simp only [healthBase]
    norm_num
  have ec0 : cons0 = 1 / 4 := by
    rw [xc0 s40 r16 q40]
    simp only [healthBase]
    norm_num
  rw [ef] at hf
  rw [ec] at hc
  rw [ef0] at hf0
  rw [ec0] at hc0
  exact ⟨⟨hr, hcap⟩, by decide, hf0, hc0, by decide, hf, hc⟩

/-- C19, at a reachable state that contradicts it: after `BufferBase base(16);
base += 16; base -= 2;` (cursors 2 and 16, capacity 16) `operator-()` yields
the view that starts at index 2 with length 16, which ends at index 18, two
bytes past the end of the array and past `m_bufferUsed`.  The view of
`operator+()` in the same state, start 16 and length 0, lies inside. -/
theorem C19_readableRegion_leaves_array :
    selftestBase.run [.append 16, .consume 2] = some fullBaseConsumed ∧
    fullBaseConsumed.readableRegion = { start := 2, len := 16 } ∧
    fullBaseConsumed.readableRegion.start + fullBaseConsumed.readableRegion.len = 18 ∧
    fullBaseConsumed.capacity = 16 ∧ fullBaseConsumed.m_buffer.length = 16 ∧
    ¬ (fullBaseConsumed.readableRegion.start + fullBaseConsumed.readableRegion.len
        ≤ fullBaseConsumed.capacity) ∧
    ¬ (fullBaseConsumed.readableRegion.start + fullBaseConsumed.readableRegion.len
        ≤ fullBaseConsumed.m_bufferUsed) ∧
    fullBaseConsumed.writableRegion = { start := 16, len := 0 } ∧
    fullBaseConsumed.writableRegion.start + fullBaseConsumed.writableRegion.len
        ≤ fullBaseConsumed.capacity := by
  decide

/-- C20. In every byte buffer state reachable from the constructor by
`append`, `appendBytes` and `consume` calls, `unconsumed() = 0` holds exactly
when `size() = 0`, and either `m_bufferOffset < m_bufferUsed` or both cursors
are zero: a drained buffer never keeps a residual offset. -/
theorem C20_no_residual_offset (b : BufferBase) (h : b.Reachable) :
    (b.unconsumed = 0 ↔ b.size = 0) ∧
    (b.m_bufferOffset < b.m_bufferUsed ∨ (b.m_bufferOffset = 0 ∧ b.m_bufferUsed = 0)) := by
  have hw := BufferBase.wellFormed_of_reachable h
  have hun := BufferBase.unconsumed_of_wellFormed hw
  have hr := BufferBase.noResidue_of_reachable h
  refine ⟨?_, hr⟩
  simp only [BufferBase.size]
  omega

/-- C20, at the self-test buffer after `base += 3; base += {0xFF, 0xFF, 0xFF};`
and three times `base -= 2;`: the last call drains it and both cursors are
zero again. -/
theorem C20_no_residual_offset_witness :
    selftestBaseDrained.Reachable ∧
    (selftestBaseDrained.unconsumed = 0 ↔ selftestBaseDrained.size = 0) ∧
    (selftestBaseDrained.m_bufferOffset < selftestBaseDrained.m_bufferUsed ∨
      (selftestBaseDrained.m_bufferOffset = 0 ∧ selftestBaseDrained.m_bufferUsed = 0)) ∧
    selftestBaseDrained.m_bufferOffset = 0 ∧ selftestBaseDrained.m_bufferUsed = 0 :=
  have h := C20_no_residual_offset selftestBaseDrained BufferBase.selftestBaseDrained_reachable
  ⟨BufferBase.selftestBaseDrained_reachable, h.1, h.2, rfl, rfl⟩

/-! ## The packet queue along arbitrary calls -/

namespace ContiguousPacketQueue

/-- What every call keeps, whether it returns or throws: a well-formed
embedded byte buffer, a ledger of `m_packetsSize` records and
`m_packetsUsed ≤ m_packetsSize`. -/
theorem bounded_step {q q' : ContiguousPacketQueue} {op : QueueOp}
    (hq : q.m_buffer.WellFormed ∧ q.m_packets.length = q.m_packetsSize ∧
      q.m_packetsSize < SIZE_MOD ∧ q.m_packetsUsed ≤ q.m_packetsSize)
    (h : (q.step op).state? = some q') :
    q'.m_buffer.WellFormed ∧ q'.m_packets.length = q'.m_packetsSize ∧
      q'.m_packetsSize < SIZE_MOD ∧ q'.m_packetsUsed ≤ q'.m_packetsSize := by
  obtain ⟨hb, hlen, hsize, hused⟩ := hq
  cases op with
  | enqueue n =>
    rcases Nat.lt_or_ge q.m_packetsUsed q.m_packets.length with hlt | hge
    · have hadd : addSz q.m_packetsUsed 1 = q.m_packetsUsed + 1 := addSz_of_lt (by omega)
      rcases Nat.lt_or_ge q.m_buffer.unused n with hgt | hle
      · simp only [step, enqueue_of_gt hlt hgt, Outcome.state?, Option.some.injEq] at h
        subst h
        exact ⟨hb, by simp [hlen], hsize, by simp only [hadd]; omega⟩
      · simp only [step, enqueue_of_le hlt hle, Outcome.state?, Option.some.injEq] at h
        subst h
        exact ⟨BufferBase.wellFormed_append hb (by rw [BufferBase.append_of_le hle]; rfl),
          by simp [hlen], hsize, by simp only [hadd]; omega⟩
    · simp [step, enqueue_of_ge hge, Outcome.state?] at h
  | enqueueBytes d =>
    rcases Nat.lt_or_ge q.m_packetsUsed q.m_packets.length with hlt | hge
    · have hadd : addSz q.m_packetsUsed 1 = q.m_packetsUsed + 1 := addSz_of_lt (by omega)
      rcases Nat.lt_or_ge q.m_buffer.unused d.length with hgt | hle
      · simp only [step, enqueueBytes_of_gt hlt hgt, Outcome.state?, Option.some.injEq] at h
        subst h
        exact ⟨hb, by simp [hlen], hsize, by simp only [hadd]; omega⟩
      · simp only [step, enqueueBytes_of_le hlt hb hle, Outcome.state?, Option.some.injEq] at h
        subst h
        exact ⟨BufferBase.wellFormed_appendBytes hb
            (by rw [BufferBase.appendBytes_of_le hb hle]; rfl),
          by simp [hlen], hsize, by simp only [hadd]; omega⟩
    · simp [step, enqueueBytes_of_ge hge, Outcome.state?] at h
  | dequeue =>
    rcases Nat.lt_or_ge q.m_packetsOffset q.m_packets.length with hin | hout
    · rcases Nat.lt_or_ge q.m_buffer.unconsumed (q.m_packets[q.m_packetsOffset]).size
        with hgt | hle
      · simp only [step, dequeue_of_gt hin hgt, Outcome.state?, Option.some.injEq] at h
        subst h
        exact ⟨hb, hlen, hsize, hused⟩
      · obtain ⟨b, hcons, hdeq⟩ := dequeue_of_le hin hle
        have hb' := BufferBase.wellFormed_consume hb (by rw [hcons]; rfl)
        simp only [step, hdeq] at h
        split at h
        · simp only [Outcome.state?, Option.some.injEq] at h
          subst h
          exact ⟨hb', hlen, hsize, Nat.zero_le _⟩
        · simp only [Outcome.state?, Option.some.injEq] at h
          subst h
          exact ⟨hb', hlen, hsize, hused⟩
    · simp [step, dequeue_of_ge hout, Outcome.state?] at h

theorem bounded_of_reachable {q : ContiguousPacketQueue} (h : q.Reachable) :
    q.m_buffer.WellFormed ∧ q.m_packets.length = q.m_packetsSize ∧
      q.m_packetsSize < SIZE_MOD ∧ q.m_packetsUsed ≤ q.m_packetsSize := by
  induction h with
  | construct mp mq jb jp hp hq =>
    exact ⟨BufferBase.wellFormed_new _ _ hq, by simp [ContiguousPacketQueue.new], hp,
      Nat.zero_le _⟩
  | call q q' op _ hstep ih => exact bounded_step ih hstep

theorem smallQueueAfterThrow_reachable : smallQueueAfterThrow.Reachable :=
  .call smallQueue _ (.enqueue 5) (.construct 2 4 zeroBytes sevenPackets (by decide) (by decide))
    (by decide)

end ContiguousPacketQueue

/-! ## Further claims about the packet queue -/

/-- C11. In every reachable state of the byte buffer and in every reachable
state of the packet queue (states left by throwing calls included),
`size() + unused() = capacity()`, `unused()` being the wrapping
`std::size_t` difference of capacity and used count; the sum is the same
whether it is taken exactly or in `std::size_t` arithmetic. -/
theorem C11_size_plus_unused (b : BufferBase) (q : ContiguousPacketQueue)
    (hb : b.Reachable) (hq : q.Reachable) :
    (b.size + b.unused = b.capacity ∧ addSz b.size b.unused = b.capacity) ∧
    (q.size + q.unused = q.capacity ∧ addSz q.size q.unused = q.capacity) := by
  have hw := BufferBase.wellFormed_of_reachable hb
  have hu := BufferBase.unused_of_wellFormed hw
  obtain ⟨_, h2, h3, _⟩ := hw
  obtain ⟨_, _, hsize, hused⟩ := ContiguousPacketQueue.bounded_of_reachable hq
  have hqu : q.unused = q.m_packetsSize - q.m_packetsUsed := subSz_of_le hused hsize
  have e1 : b.size + b.unused = b.capacity := by
    simp only [BufferBase.size, BufferBase.capacity, hu]; omega
  have e2 : q.size + q.unused = q.capacity := by
    simp only [ContiguousPacketQueue.size, ContiguousPacketQueue.capacity, hqu]; omega
  refine ⟨⟨e1, ?_⟩, ⟨e2, ?_⟩⟩
  · rw [addSz_of_lt (by rw [e1]; exact h3), e1]
  · rw [addSz_of_lt (by rw [e2]; exact hsize), e2]

/-- C11, at the self-test buffer after `base -= 2;` (6 + 10 = 16) and at the
queue `queue(2, 4)` after a throwing `queue += 5;` (1 + 1 = 2). -/
theorem C11_size_plus_unused_witness :
    (selftestBaseConsumed.Reachable ∧ smallQueueAfterThrow.Reachable) ∧
    (selftestBaseConsumed.size = 6 ∧ selftestBaseConsumed.unused = 10 ∧
      selftestBaseConsumed.capacity = 16) ∧
    (smallQueueAfterThrow.size = 1 ∧ smallQueueAfterThrow.unused = 1 ∧
      smallQueueAfterThrow.capacity = 2) ∧
    (selftestBaseConsumed.size + selftestBaseConsumed.unused = selftestBaseConsumed.capacity ∧
      addSz selftestBaseConsumed.size selftestBaseConsumed.unused
        = selftestBaseConsumed.capacity) ∧
    (smallQueueAfterThrow.size + smallQueueAfterThrow.unused = smallQueueAfterThrow.capacity ∧
      addSz smallQueueAfterThrow.size smallQueueAfterThrow.unused
        = smallQueueAfterThrow.capacity) :=
  have h := C11_size_plus_unused selftestBaseConsumed smallQueueAfterThrow
    BufferBase.selftestBaseConsumed_reachable
    ContiguousPacketQueue.smallQueueAfterThrow_reachable
  ⟨⟨BufferBase.selftestBaseConsumed_reachable,
      ContiguousPacketQueue.smallQueueAfterThrow_reachable⟩,
    by decide, by decide, h.1, h.2⟩

/-! ## The packet queue along returning calls, `dequeue` on an empty queue included -/

namespace BufferBase

theorem unconsumed_commit {b : BufferBase} {n : Nat} (mem : List UInt8) (hb : b.WellFormed)
    (hn : n ≤ b.unused) :
    ({ b with m_buffer := mem, m_bufferUsed := b.m_bufferUsed + n } : BufferBase).unconsumed
      = b.unconsumed + n := by
  have hu := unused_of_wellFormed hb
  have hc := unconsumed_of_wellFormed hb
  obtain ⟨h1, h2, h3, _⟩ := hb
  show subSz (b.m_bufferUsed + n) b.m_bufferOffset = _
  rw [subSz_of_le (by omega) (by omega), hc]
  omega

theorem addSz_used {b : BufferBase} {n : Nat} (hb : b.WellFormed) (hn : n ≤ b.unused) :
    addSz b.m_bufferUsed n = b.m_bufferUsed + n := by
  have hu := unused_of_wellFormed hb
  obtain ⟨_, h2, h3, _⟩ := hb
  exact addSz_of_lt (by omega)

end BufferBase

namespace ContiguousPacketQueue

theorem reachable_of_reachableBySuccess {q : ContiguousPacketQueue}
    (h : q.ReachableBySuccess) : q.Reachable := by
  induction h with
  | construct mp mq jb jp hp hq => exact .construct mp mq jb jp hp hq
  | call q q' op _ hstep ih => exact .call q q' op ih (by rw [hstep]; rfl)

/-- The form of a returning `enqueue`, on a queue with a well-formed byte
buffer. -/
theorem enqueue_ok_inv {q q' : ContiguousPacketQueue} {n : Nat} (hb : q.m_buffer.WellFormed)
    (h : q.enqueue n = .ok q') :
    q.m_packetsUsed < q.m_packets.length ∧ n ≤ q.m_buffer.unused ∧
      q' = { q with
        m_packets := q.m_packets.set q.m_packetsUsed { size := n }
        m_packetsUsed := addSz q.m_packetsUsed 1
        m_buffer := { q.m_buffer with m_bufferUsed := q.m_buffer.m_bufferUsed + n } } := by
  rcases Nat.lt_or_ge q.m_packetsUsed q.m_packets.length with hlt | hge
  · rcases Nat.lt_or_ge q.m_buffer.unused n with hgt | hle
    · rw [enqueue_of_gt hlt hgt] at h
      cases h
    · rw [enqueue_of_le hlt hle, BufferBase.addSz_used hb hle] at h
      cases h
      exact ⟨hlt, hle, rfl⟩
  · rw [enqueue_of_ge hge] at h
    cases h

/-- The form of a returning `enqueueBytes`, on a queue with a well-formed
byte buffer. -/
theorem enqueueBytes_ok_inv {q q' : ContiguousPacketQueue} {d : List UInt8}
    (hb : q.m_buffer.WellFormed) (h : q.enqueueBytes d = .ok q') :
    q.m_packetsUsed < q.m_packets.length ∧ d.length ≤ q.m_buffer.unused ∧
      q' = { q with
        m_packets := q.m_packets.set q.m_packetsUsed { size := d.length }
        m_packetsUsed := addSz q.m_packetsUsed 1
        m_buffer := { q.m_buffer with
          m_buffer := BufferBase.copyInto q.m_buffer.m_buffer q.m_buffer.m_bufferUsed d
          m_bufferUsed := q.m_buffer.m_bufferUsed + d.length } } := by
  rcases Nat.lt_or_ge q.m_packetsUsed q.m_packets.length with hlt | hge
  · rcases Nat.lt_or_ge q.m_buffer.unused d.length with hgt | hle
    · rw [enqueueBytes_of_gt hlt hgt] at h
      cases h
    · rw [enqueueBytes_of_le hlt hb hle] at h
      cases h
      exact ⟨hlt, hle, rfl⟩
  · rw [enqueueBytes_of_ge hge] at h
    cases h

/-- Sum of the live lengths once one more record is written and counted,
whether or not `m_packetsOffset` has overtaken `m_packetsUsed`. -/
theorem liveBytes_record_le (l : List Element) (off used n live : Nat)
    (hused : used < l.length)
    (hlive : (((l.take used).drop off).map Element.size).sum ≤ live) :
    ((((l.set used { size := n }).take (used + 1)).drop off).map Element.size).sum
      ≤ live + n := by
  rcases Nat.lt_or_ge used off with hgt | hle
  · have hnil : ((l.set used { size := n }).take (used + 1)).drop off = [] := by
      rw [List.drop_eq_nil_iff, List.length_take]; omega
    simp [hnil]
  · rw [liveBytes_record l off used n hle hused]
    omega

theorem liveBytes_le_step {q q' : ContiguousPacketQueue} {op : QueueOp}
    (hq : q.m_buffer.WellFormed ∧ q.m_packets.length = q.m_packetsSize ∧
      q.m_packetsSize < SIZE_MOD ∧ q.m_packetsUsed ≤ q.m_packetsSize)
    (hlive : q.liveBytes ≤ q.m_buffer.unconsumed) (h : q.step op = .ok q') :
    q'.liveBytes ≤ q'.m_buffer.unconsumed := by
  obtain ⟨hb, hlen, hsize, hused⟩ := hq
  simp only [liveBytes] at hlive
  cases op with
  | enqueue n =>
    obtain ⟨hlt, hle, rfl⟩ := enqueue_ok_inv hb h
    have hadd : addSz q.m_packetsUsed 1 = q.m_packetsUsed + 1 := addSz_of_lt (by omega)
    have hun := BufferBase.unconsumed_commit q.m_buffer.m_buffer hb hle
    simp only [liveBytes, hadd]
    rw [hun]
    exact liveBytes_record_le _ _ _ _ _ hlt hlive
  | enqueueBytes d =>
    obtain ⟨hlt, hle, rfl⟩ := enqueueBytes_ok_inv hb h
    have hadd : addSz q.m_packetsUsed 1 = q.m_packetsUsed + 1 := addSz_of_lt (by omega)
    have hun := BufferBase.unconsumed_commit
      (BufferBase.copyInto q.m_buffer.m_buffer q.m_buffer.m_bufferUsed d) hb hle
    simp only [liveBytes, hadd]
    rw [hun]
    exact liveBytes_record_le _ _ _ _ _ hlt hlive
  | dequeue =>
    rcases Nat.lt_or_ge q.m_packetsOffset q.m_packets.length with hin | hout
    · rcases Nat.lt_or_ge q.m_buffer.unconsumed (q.m_packets[q.m_packetsOffset]).size
        with hgt | hle
      · simp [step, dequeue_of_gt hin hgt] at h
      · obtain ⟨b, hcons, hdeq⟩ := dequeue_of_le hin hle
        have hun := BufferBase.unconsumed_consume hb hle hcons
        have hadd : addSz q.m_packetsOffset 1 = q.m_packetsOffset + 1 :=
          addSz_of_lt (by omega)
        simp only [step, hdeq, hadd] at h
        split at h
        · cases h
          simp [liveBytes]
        · cases h
          simp only [liveBytes, hun]
          rcases Nat.lt_or_ge q.m_packetsOffset q.m_packetsUsed with hlt | hge
          · have hsplit := liveBytes_oldest q.m_packets q.m_packetsOffset q.m_packetsUsed hlt
              (by omega)
            omega
          · have hnil : (q.m_packets.take q.m_packetsUsed).drop (q.m_packetsOffset + 1) = [] := by
              rw [List.drop_eq_nil_iff, List.length_take]; omega
            simp [hnil]
    · simp [step, dequeue_of_ge hout] at h

theorem liveBytes_le_of_reachableBySuccess {q : ContiguousPacketQueue}
    (h : q.ReachableBySuccess) : q.liveBytes ≤ q.m_buffer.unconsumed := by
  induction h with
  | construct mp mq jb jp hp hq => simp [liveBytes, ContiguousPacketQueue.new]
  | call q q' op hq hstep ih =>
    exact liveBytes_le_step (bounded_of_reachable (reachable_of_reachableBySuccess hq)) ih hstep

theorem selftestQueueFive_reachableBySuccess : selftestQueueFive.ReachableBySuccess :=
  .call _ _ (.enqueue 3)
    (.call _ _ (.enqueue 16)
      (.call _ _ (.enqueueBytes [0xFF, 0xFF, 0xFF])
        (.call _ _ (.enqueue 8)
          (.call selftestQueue _ (.enqueue 4)
            (.construct 8 64 zeroBytes sevenPackets (by decide) (by decide))
            rfl)
          rfl)
        rfl)
      rfl)
    rfl

end ContiguousPacketQueue

/-! ## The packet queue along calls made within their contract -/

namespace ContiguousPacketQueue

/-- A call made within its contract on a well-formed queue returns normally,
into a well-formed queue. -/
theorem step_ok_of_requires {q : ContiguousPacketQueue} {op : QueueOp} (hq : q.WellFormed)
    (hpre : q.Requires op) : ∃ q', q.step op = .ok q' ∧ q'.WellFormed := by
  have hw := hq
  obtain ⟨hb, hlen, hsize, hoff, hused, hsum⟩ := hq
  cases op with
  | enqueue n =>
    obtain ⟨hroom, hfit⟩ := hpre
    have hlt : q.m_packetsUsed < q.m_packets.length := by omega
    have hstep := enqueue_of_le hlt hfit
    exact ⟨_, hstep, wellFormed_enqueue hw hstep⟩
  | enqueueBytes d =>
    obtain ⟨hroom, hfit⟩ := hpre
    have hlt : q.m_packetsUsed < q.m_packets.length := by omega
    have hstep := enqueueBytes_of_le hlt hb hfit
    exact ⟨_, hstep, wellFormed_enqueueBytes hw hstep⟩
  | dequeue =>
    have hlive : q.m_packetsOffset < q.m_packetsUsed := hpre
    have hin : q.m_packetsOffset < q.m_packets.length := by omega
    have hsplit := liveBytes_oldest q.m_packets q.m_packetsOffset q.m_packetsUsed hlive
      (by omega)
    simp only [liveBytes] at hsum
    have hfit : (q.m_packets[q.m_packetsOffset]).size ≤ q.m_buffer.unconsumed := by omega
    obtain ⟨b, _, hdeq⟩ := dequeue_of_le hin hfit
    by_cases hlast : addSz q.m_packetsOffset 1 = q.m_packetsUsed
    · rw [if_pos hlast] at hdeq
      exact ⟨_, hdeq, wellFormed_dequeue hw hlive hdeq⟩
    · rw [if_neg hlast] at hdeq
      exact ⟨_, hdeq, wellFormed_dequeue hw hlive hdeq⟩

theorem wellFormed_of_reachableWithinContract {q : ContiguousPacketQueue}
    (h : q.ReachableWithinContract) : q.WellFormed := by
  induction h with
  | construct mp mq jb jp hp hq => exact wellFormed_newQueue mp mq jb jp hp hq
  | call q q' op _ hpre hstep ih =>
    obtain ⟨q'', hok, hw⟩ := step_ok_of_requires ih hpre
    rw [hok] at hstep
    simp only [Outcome.state?, Option.some.injEq] at hstep
    exact hstep ▸ hw

end ContiguousPacketQueue

/-- C12. In a packet queue state reached from the constructor by calls that
all returned normally and holding at least one live packet
(`m_packetsOffset < m_packetsUsed`), `dequeue` returns normally and applies
to the embedded byte buffer `consume` with the length recorded at
`m_packets[m_packetsOffset]`, the oldest live record, so that `unconsumed()` of
the byte buffer drops by exactly that length.  If more than one packet was
live, `m_packetsOffset` advances by one, `size()` and `unused()` are unchanged
and `unconsumed()` drops by exactly 1; if exactly one was live
(`m_packetsOffset + 1 = m_packetsUsed`), both packet counters become 0. -/
theorem C12_dequeue_oldest (q : ContiguousPacketQueue) (h : q.ReachableBySuccess)
    (hlive : q.m_packetsOffset < q.m_packetsUsed) :
    ∃ e b' q', q.m_packets[q.m_packetsOffset]? = some e ∧
      q.m_buffer.consume e.size = .ok b' ∧ q.dequeue = .ok q' ∧ q'.m_buffer = b' ∧
      b'.unconsumed = q.m_buffer.unconsumed - e.size ∧ e.size ≤ q.m_buffer.unconsumed ∧
      q'.m_packets = q.m_packets ∧ q'.capacity = q.capacity ∧
      (q.m_packetsOffset + 1 < q.m_packetsUsed →
        q'.m_packetsOffset = q.m_packetsOffset + 1 ∧ q'.size = q.size ∧
          q'.unused = q.unused ∧ q'.unconsumed = q.unconsumed - 1) ∧
      (q.m_packetsOffset + 1 = q.m_packetsUsed →
        q'.m_packetsOffset = 0 ∧ q'.m_packetsUsed = 0) := by
  obtain ⟨hb, hlen, hsize, hused⟩ := ContiguousPacketQueue.bounded_of_reachable
    (ContiguousPacketQueue.reachable_of_reachableBySuccess h)
  have hle := ContiguousPacketQueue.liveBytes_le_of_reachableBySuccess h
  have hin : q.m_packetsOffset < q.m_packets.length := by omega
  have hsplit := ContiguousPacketQueue.liveBytes_oldest q.m_packets q.m_packetsOffset
    q.m_packetsUsed hlive (by omega)
  simp only [ContiguousPacketQueue.liveBytes] at hle
  have hfit : (q.m_packets[q.m_packetsOffset]).size ≤ q.m_buffer.unconsumed := by omega
  obtain ⟨b, hcons, hdeq⟩ := ContiguousPacketQueue.dequeue_of_le hin hfit
  have hun := BufferBase.unconsumed_consume hb hfit hcons
  have hadd : addSz q.m_packetsOffset 1 = q.m_packetsOffset + 1 := addSz_of_lt (by omega)
  rw [hadd] at hdeq
  by_cases hlast : q.m_packetsOffset + 1 = q.m_packetsUsed
  · rw [if_pos hlast] at hdeq
    exact ⟨_, b, _, List.getElem?_eq_getElem hin, hcons, hdeq, rfl, hun, hfit, rfl, rfl,
      fun hmore => absurd hlast (Nat.ne_of_lt hmore), fun _ => ⟨rfl, rfl⟩⟩
  · rw [if_neg hlast] at hdeq
    refine ⟨_, b, _, List.getElem?_eq_getElem hin, hcons, hdeq, rfl, hun, hfit, rfl, rfl,
      fun _ => ⟨rfl, rfl, rfl, ?_⟩, fun hone => absurd hone hlast⟩
    show subSz q.m_packetsUsed (q.m_packetsOffset + 1) = subSz q.m_packetsUsed q.m_packetsOffset - 1
    rw [subSz_of_le (by omega) (by omega), subSz_of_le (by omega) (by omega)]
    omega

/-- C12, at the self-test queue with its five packets enqueued (lines 54 to
67): `--queue` consumes the 4 bytes of the first packet and leaves
`size() = 5` and `unconsumed() = 4`. -/
theorem C12_dequeue_oldest_witness :
    (selftestQueueFive.ReachableBySuccess ∧
      selftestQueueFive.m_packetsOffset < selftestQueueFive.m_packetsUsed) ∧
    selftestQueueFive.m_packets[selftestQueueFive.m_packetsOffset]? = some { size := 4 } ∧
    ∃ q', selftestQueueFive.dequeue = .ok q' ∧ q'.size = 5 ∧ q'.unconsumed = 4 ∧
      q'.unused = 3 ∧ q'.m_buffer.unconsumed = selftestQueueFive.m_buffer.unconsumed - 4 := by
  have hr := ContiguousPacketQueue.selftestQueueFive_reachableBySuccess
  have hlive : selftestQueueFive.m_packetsOffset < selftestQueueFive.m_packetsUsed := by decide
  obtain ⟨e, b', q', he, _, hdeq, hbuf, hun, _, _, _, hmore, _⟩ :=
    C12_dequeue_oldest selftestQueueFive hr hlive
  have he4 : e = { size := 4 } := by
    have h4 : selftestQueueFive.m_packets[selftestQueueFive.m_packetsOffset]?
        = some { size := 4 } := by decide
    rw [h4] at he
    exact (Option.some.inj he).symm
  obtain ⟨_, hsize, hunused, hunc⟩ := hmore (by decide)
  refine ⟨⟨hr, hlive⟩, by decide, q', hdeq, ?_, ?_, ?_, ?_⟩
  · rw [hsize]; decide
  · rw [hunc]; decide
  · rw [hunused]; decide
  · rw [hbuf, hun, he4]

/-- C18. In every packet queue state reached from the constructor by calls
made within their contract (an enqueue only with
`m_packetsUsed < m_packetsSize` and a length not above `unused()` of the
embedded byte buffer, a dequeue only with a live packet), the counters are
ordered, `m_packetsOffset ≤ m_packetsUsed ≤ m_packetsSize`, the lengths
recorded at `[m_packetsOffset, m_packetsUsed)` add up to `unconsumed()` of the
byte buffer, and every further call within its contract returns normally,
into a state with the same properties.  Packets of length zero are
admitted. -/
theorem C18_calls_within_contract (q : ContiguousPacketQueue)
    (h : q.ReachableWithinContract) :
    (q.m_packetsOffset ≤ q.m_packetsUsed ∧ q.m_packetsUsed ≤ q.m_packetsSize ∧
      q.liveBytes = q.m_buffer.unconsumed) ∧
    ∀ op, q.Requires op →
      ∃ q', q.step op = .ok q' ∧ q'.m_packetsOffset ≤ q'.m_packetsUsed ∧
        q'.m_packetsUsed ≤ q'.m_packetsSize ∧ q'.liveBytes = q'.m_buffer.unconsumed := by
  have hw := ContiguousPacketQueue.wellFormed_of_reachableWithinContract h
  refine ⟨hw.2.2.2, fun op hpre => ?_⟩
  obtain ⟨q', hstep, hw'⟩ := ContiguousPacketQueue.step_ok_of_requires hw hpre
  exact ⟨q', hstep, hw'.2.2.2⟩

/-- C18, at the queue `queue(2, 16)` after `queue += 0;`, a packet of length
zero: the state is reached within the contract, and `--queue`, for which one
packet is live, returns normally. -/
theorem C18_calls_within_contract_witness :
    zeroPacketQueue.ReachableWithinContract ∧
    (zeroPacketQueue.m_packetsOffset ≤ zeroPacketQueue.m_packetsUsed ∧
      zeroPacketQueue.m_packetsUsed ≤ zeroPacketQueue.m_packetsSize ∧
      zeroPacketQueue.liveBytes = zeroPacketQueue.m_buffer.unconsumed) ∧
    zeroPacketQueue.Requires .dequeue ∧
    ∃ q', zeroPacketQueue.step .dequeue = .ok q' ∧ q'.m_packetsOffset ≤ q'.m_packetsUsed ∧
      q'.m_packetsUsed ≤ q'.m_packetsSize ∧ q'.liveBytes = q'.m_buffer.unconsumed :=
  have hr : zeroPacketQueue.ReachableWithinContract :=
    .call freshQueue _ (.enqueue 0)
      (.construct 2 16 zeroBytes sevenPackets (by decide) (by decide))
      (by decide) (by decide)
  have h := C18_calls_within_contract zeroPacketQueue hr
  ⟨hr, h.1, by decide, h.2 .dequeue (by decide)⟩

/-! ## Enqueuing a list of packets, then draining the queue -/

namespace BufferBase

theorem getElem?_copyInto_lt {mem : List UInt8} {pos j : Nat} (to_add : List UInt8)
    (hpos : pos ≤ mem.length) (hj : j < pos) : (copyInto mem pos to_add)[j]? = mem[j]? := by
  have hlen : (mem.take pos).length = pos := by rw [List.length_take]; omega
  simp only [copyInto, List.append_assoc]
  rw [List.getElem?_append_left (by omega), List.getElem?_take_of_lt hj]

theorem getElem?_copyInto_mid {mem : List UInt8} {pos i : Nat} {to_add : List UInt8}
    (hpos : pos ≤ mem.length) (hi : i < to_add.length) :
    (copyInto mem pos to_add)[pos + i]? = to_add[i]? := by
  have hlen : (mem.take pos).length = pos := by rw [List.length_take]; omega
  simp only [copyInto, List.append_assoc]
  rw [List.getElem?_append_right (by omega), hlen, Nat.add_sub_cancel_left,
    List.getElem?_append_left hi]

end BufferBase

theorem packetStart_add_le (ps : List Packet) (i : Nat) (p : Packet) (h : ps[i]? = some p) :
    packetStart ps i + p.length ≤ (ps.map Packet.length).sum := by
  induction ps generalizing i with
  | nil => simp at h
  | cons a t ih =>
    cases i with
    | zero =>
      simp only [List.getElem?_cons_zero, Option.some.injEq] at h
      subst h
      simp [packetStart]
    | succ k =>
      simp only [List.getElem?_cons_succ] at h
      have := ih k h
      simp only [packetStart, List.take_succ_cons, List.map_cons, List.sum_cons] at *
      omega

theorem packetStart_append (ps : List Packet) (p : Packet) (i : Nat) (h : i ≤ ps.length) :
    packetStart (ps ++ [p]) i = packetStart ps i := by
  simp only [packetStart, List.take_append_of_le_length h]

theorem packetStart_length (ps : List Packet) (p : Packet) :
    packetStart (ps ++ [p]) ps.length = (ps.map Packet.length).sum := by
  simp only [packetStart, List.take_left]

namespace ContiguousPacketQueue

theorem runReturning_append (q : ContiguousPacketQueue) (xs ys : List QueueOp) :
    q.runReturning (xs ++ ys) = (q.runReturning xs).bind fun q' => q'.runReturning ys := by
  induction xs generalizing q with
  | nil => rfl
  | cons op ops ih =>
    simp only [List.cons_append, runReturning]
    cases q.step op with
    | ok q' => exact ih q'
    | thrown e s => rfl
    | undefined => rfl

theorem runReturning_single {q q' : ContiguousPacketQueue} {op : QueueOp}
    (h : q.step op = .ok q') : q.runReturning [op] = some q' := by
  simp only [runReturning, h]

/-- One more packet on a queue that holds `ps`. -/
theorem holds_snoc {q : ContiguousPacketQueue} {ps : List Packet} (p : Packet)
    (hq : q.WellFormed) (hold : q.Holds ps) (hroom : ps.length < q.m_packetsSize)
    (hfit : (ps.map Packet.length).sum + p.length ≤ q.m_buffer.m_bufferSize) :
    ∃ q', q.step p.toOp = .ok q' ∧ q'.WellFormed ∧ q'.Holds (ps ++ [p]) ∧
      q'.m_packetsSize = q.m_packetsSize ∧ q'.m_buffer.m_bufferSize = q.m_buffer.m_bufferSize := by
  have hw := hq
  obtain ⟨hb, hlen, hsize, _, _, _⟩ := hq
  obtain ⟨h1, h2, h3, h4, h5, h6⟩ := hold
  have hu := BufferBase.unused_of_wellFormed hb
  have hmem : q.m_buffer.m_buffer.length = q.m_buffer.m_bufferSize := hb.2.2.2
  have hlt : q.m_packetsUsed < q.m_packets.length := by omega
  have hle : p.length ≤ q.m_buffer.unused := by omega
  have hadd : addSz q.m_packetsUsed 1 = ps.length + 1 := by
    rw [addSz_of_lt (by omega), h2]
  have hsum : ((ps ++ [p]).map Packet.length).sum = q.m_buffer.m_bufferUsed + p.length := by
    simp [h4]
  have hledger : ∀ (i : Nat) (p' : Packet), (ps ++ [p])[i]? = some p' →
      (q.m_packets.set q.m_packetsUsed { size := p.length })[i]? = some (Element.mk p'.length) := by
    intro i p' hi
    rcases Nat.lt_or_ge i ps.length with hil | hig
    · rw [List.getElem?_append_left hil] at hi
      rw [List.getElem?_set_ne (by omega)]
      exact h5 i p' hi
    · have hi' := hi
      rw [List.getElem?_append_right hig] at hi'
      have hidx : i - ps.length = 0 := by
        by_contra hne
        rw [List.getElem?_eq_none (by simp; omega)] at hi'
        cases hi'
      rw [hidx] at hi'
      simp only [List.getElem?_cons_zero, Option.some.injEq] at hi'
      subst hi'
      have hi_eq : i = q.m_packetsUsed := by omega
      rw [hi_eq, List.getElem?_set_self hlt]
  cases p with
  | reserve n =>
    have hstep := enqueue_of_le hlt hle
    rw [BufferBase.addSz_used hb hle] at hstep
    refine ⟨_, hstep, wellFormed_enqueue hw hstep, ⟨h1, ?_, h3, hsum.symm, hledger, ?_⟩, rfl, rfl⟩
    · simp only [hadd, List.length_append, List.length_singleton]
    · intro i d hi j hj
      rcases Nat.lt_or_ge i ps.length with hil | hig
      · rw [List.getElem?_append_left hil] at hi
        rw [packetStart_append ps _ i (by omega)]
        exact h6 i d hi j hj
      · rw [List.getElem?_append_right hig] at hi
        have hidx : i - ps.length = 0 := by
          by_contra hne
          rw [List.getElem?_eq_none (by simp; omega)] at hi
          cases hi
        rw [hidx] at hi
        simp at hi
  | bytes d0 =>
    have hstep := enqueueBytes_of_le hlt hb hle
    refine ⟨_, hstep, wellFormed_enqueueBytes hw hstep, ⟨h1, ?_, h3, hsum.symm, hledger, ?_⟩,
      rfl, rfl⟩
    · simp only [hadd, List.length_append, List.length_singleton]
    · intro i d hi j hj
      have hpos : q.m_buffer.m_bufferUsed ≤ q.m_buffer.m_buffer.length := by
        have := hb.2.1
        omega
      rcases Nat.lt_or_ge i ps.length with hil | hig
      · rw [List.getElem?_append_left hil] at hi
        rw [packetStart_append ps _ i (by omega)]
        have hbound := packetStart_add_le ps i _ hi
        simp only [Packet.length] at hbound
        have hbelow : packetStart ps i + j < q.m_buffer.m_bufferUsed := by omega
        have hold := h6 i d hi j hj
        simp only [BufferBase.byteAt] at hold ⊢
        rw [BufferBase.getElem?_copyInto_lt d0 hpos hbelow]
        exact hold
      · have hi' := hi
        rw [List.getElem?_append_right hig] at hi'
        have hidx : i - ps.length = 0 := by
          by_contra hne
          rw [List.getElem?_eq_none (by simp; omega)] at hi'
          cases hi'
        rw [hidx] at hi'
        simp only [List.getElem?_cons_zero, Option.some.injEq, Packet.bytes.injEq] at hi'
        subst hi'
        have hi_eq : i = ps.length := by omega
        rw [hi_eq, packetStart_length, ← h4]
        simp only [BufferBase.byteAt]
        exact BufferBase.getElem?_copyInto_mid hpos hj

/-- Enqueuing a list of packets that fits, on a freshly constructed queue. -/
theorem enqueueAll (max_packets max_queue_size : Nat) (junkBytes : Nat → UInt8)
    (junkPackets : Nat → Element) (hp : max_packets < SIZE_MOD)
    (hq : max_queue_size < SIZE_MOD) (ps : List Packet) (hk : ps.length ≤ max_packets)
    (hs : (ps.map Packet.length).sum ≤ max_queue_size) :
    ∃ q, (ContiguousPacketQueue.new max_packets max_queue_size junkBytes
        junkPackets).runReturning (ps.map Packet.toOp) = some q ∧
      q.WellFormed ∧ q.Holds ps ∧ q.m_packetsSize = max_packets ∧
      q.m_buffer.m_bufferSize = max_queue_size := by
  induction ps using List.reverseRecOn with
  | nil =>
    refine ⟨_, rfl, wellFormed_newQueue _ _ _ _ hp hq, ⟨rfl, rfl, rfl, rfl, ?_, ?_⟩, rfl, rfl⟩
    · intro i p h
      simp at h
    · intro i d h
      simp at h
  | append_singleton ps p ih =>
    simp only [List.length_append, List.length_singleton, List.map_append, List.map_cons,
      List.map_nil, List.sum_append, List.sum_cons, List.sum_nil, Nat.add_zero] at hk hs
    obtain ⟨q, hrun, hw, hold, hsz, hbsz⟩ := ih (by omega) (by omega)
    obtain ⟨q', hstep, hw', hold', hsz', hbsz'⟩ :=
      holds_snoc p hw hold (by omega) (by omega)
    refine ⟨q', ?_, hw', hold', by omega, by omega⟩
    rw [List.map_append, runReturning_append, hrun]
    exact runReturning_single hstep

/-- Dequeuing every live packet of a well-formed queue. -/
theorem drain (m : Nat) (q : ContiguousPacketQueue) (hq : q.WellFormed)
    (hm : q.m_packetsUsed = q.m_packetsOffset + (m + 1)) :
    ∃ q', q.runReturning (List.replicate (m + 1) .dequeue) = some q' ∧
      q'.m_packetsOffset = 0 ∧ q'.m_packetsUsed = 0 ∧ q'.m_packetsSize = q.m_packetsSize ∧
      q'.m_buffer.m_bufferOffset = 0 ∧ q'.m_buffer.m_bufferUsed = 0 ∧
      q'.m_buffer.m_bufferSize = q.m_buffer.m_bufferSize := by
  induction m generalizing q with
  | zero =>
    have hw := hq
    obtain ⟨hb, hlen, hsize, hoff, hused, hsum⟩ := hq
    have hin : q.m_packetsOffset < q.m_packets.length := by omega
    have hsplit := liveBytes_oldest q.m_packets q.m_packetsOffset q.m_packetsUsed (by omega)
      (by omega)
    have hnil : ((q.m_packets.take q.m_packetsUsed).drop (q.m_packetsOffset + 1)) = [] := by
      rw [List.drop_eq_nil_iff, List.length_take]; omega
    rw [hnil] at hsplit
    simp only [liveBytes, List.map_nil, List.sum_nil, Nat.add_zero] at hsum hsplit
    have heq : (q.m_packets[q.m_packetsOffset]).size = q.m_buffer.unconsumed := by omega
    have hadd : addSz q.m_packetsOffset 1 = q.m_packetsUsed := by
      rw [addSz_of_lt (by omega)]; omega
    have hdeq : q.dequeue = .ok { q with
        m_buffer := { q.m_buffer with m_bufferUsed := 0, m_bufferOffset := 0 }
        m_packetsOffset := 0, m_packetsUsed := 0 } := by
      simp [dequeue, List.getElem?_eq_getElem hin, BufferBase.consume_of_eq heq, hadd]
    exact ⟨_, runReturning_single hdeq, rfl, rfl, rfl, rfl, rfl, rfl⟩
  | succ k ih =>
    have hw := hq
    obtain ⟨hb, hlen, hsize, hoff, hused, hsum⟩ := hq
    have hlive : q.m_packetsOffset < q.m_packetsUsed := by omega
    have hpre : q.Requires .dequeue := hlive
    obtain ⟨q1, hstep, hw1⟩ := step_ok_of_requires hw hpre
    have hin : q.m_packetsOffset < q.m_packets.length := by omega
    have hadd : addSz q.m_packetsOffset 1 = q.m_packetsOffset + 1 := addSz_of_lt (by omega)
    have hshape : q1.m_packetsOffset = q.m_packetsOffset + 1 ∧
        q1.m_packetsUsed = q.m_packetsUsed ∧ q1.m_packetsSize = q.m_packetsSize ∧
        q1.m_buffer.m_bufferSize = q.m_buffer.m_bufferSize := by
      have hsplit := liveBytes_oldest q.m_packets q.m_packetsOffset q.m_packetsUsed hlive
        (by omega)
      simp only [liveBytes] at hsum
      have hfit : (q.m_packets[q.m_packetsOffset]).size ≤ q.m_buffer.unconsumed := by omega
      obtain ⟨b, hcons, hdeq⟩ := dequeue_of_le hin hfit
      obtain ⟨b', hst, _, hcap⟩ := BufferBase.consume_frame q.m_buffer
        (q.m_packets[q.m_packetsOffset]).size
      rw [hcons] at hst
      simp only [Outcome.state?, Option.some.injEq] at hst
      subst hst
      simp only [step] at hstep
      rw [hdeq, hadd, if_neg (by omega)] at hstep
      cases hstep
      exact ⟨rfl, rfl, rfl, hcap⟩
    obtain ⟨h1, h2, h3, h4⟩ := hshape
    obtain ⟨q', hrun, r1, r2, r3, r4, r5, r6⟩ := ih q1 hw1 (by omega)
    refine ⟨q', ?_, r1, r2, by omega, r4, r5, by omega⟩
    rw [List.replicate_succ, runReturning]
    simp only [hstep]
    exact hrun

end ContiguousPacketQueue

/-- C13. On a freshly constructed queue, enqueuing in order a list of `k`
packets with `k ≤ max_packets` whose lengths add up to at most
`max_queue_size` returns normally at every call and leaves: `size()` of the
embedded byte buffer equal to the sum of the lengths, `size() = k`,
`unused() = max_packets - k` and `unconsumed() = k` for the queue, record `i`
of the ledger equal to the length of packet `i`, and the bytes of every
packet given as a byte sequence stored from absolute index
`packetStart ps i`, the sum of the lengths of the packets before it. -/
theorem C13_enqueue_list (max_packets max_queue_size : Nat) (junkBytes : Nat → UInt8)
    (junkPackets : Nat → Element) (ps : List Packet) (hp : max_packets < SIZE_MOD)
    (hq : max_queue_size < SIZE_MOD) (hk : ps.length ≤ max_packets)
    (hs : (ps.map Packet.length).sum ≤ max_queue_size) :
    ∃ q, (ContiguousPacketQueue.new max_packets max_queue_size junkBytes
        junkPackets).runReturning (ps.map Packet.toOp) = some q ∧
      q.GetBuffer.size = (ps.map Packet.length).sum ∧
      q.size = ps.length ∧ q.unused = max_packets - ps.length ∧
      q.unconsumed = ps.length ∧ q.capacity = max_packets ∧
      (∀ (i : Nat) (p : Packet), ps[i]? = some p →
        q.m_packets[i]? = some (Element.mk p.length)) ∧
      (∀ (i : Nat) (d : List UInt8), ps[i]? = some (Packet.bytes d) →
        ∀ j : Nat, j < d.length → q.GetBuffer.byteAt (packetStart ps i + j) = d[j]?) := by
  obtain ⟨q, hrun, _, ⟨h1, h2, _, h4, h5, h6⟩, hsz, _⟩ :=
    ContiguousPacketQueue.enqueueAll max_packets max_queue_size junkBytes junkPackets hp hq ps
      hk hs
  refine ⟨q, hrun, h4, h2, ?_, ?_, hsz, h5, h6⟩
  · simp only [ContiguousPacketQueue.unused, hsz, h2]
    exact subSz_of_le hk hp
  · simp only [ContiguousPacketQueue.unconsumed, h1, h2]
    rw [subSz_of_le (Nat.zero_le _) (by omega)]
    omega

/-- C13, scenario D of the self-test: `queue(8, 64)` and the packets of
lengths 4, 8, 3 (the bytes `0xFF, 0xFF, 0xFF`) and 16 give `size() = 31` for
the byte buffer and `size() = 4`, `unused() = 4`, `unconsumed() = 4` for the
queue; the three bytes stand at indices 12, 13 and 14. -/
theorem C13_enqueue_list_witness :
    ((8 : Nat) < SIZE_MOD ∧ (64 : Nat) < SIZE_MOD ∧ scenarioPackets.length ≤ 8 ∧
      (scenarioPackets.map Packet.length).sum ≤ 64) ∧
    ∃ q, selftestQueue.runReturning (scenarioPackets.map Packet.toOp) = some q ∧
      q.GetBuffer.size = 31 ∧ q.size = 4 ∧ q.unused = 4 ∧ q.unconsumed = 4 ∧
      q.m_packets[0]? = some { size := 4 } ∧ q.m_packets[1]? = some { size := 8 } ∧
      q.m_packets[2]? = some { size := 3 } ∧ q.m_packets[3]? = some { size := 16 } ∧
      q.GetBuffer.byteAt 12 = some 0xFF ∧ q.GetBuffer.byteAt 13 = some 0xFF ∧
      q.GetBuffer.byteAt 14 = some 0xFF := by
  have hyp : (8 : Nat) < SIZE_MOD ∧ (64 : Nat) < SIZE_MOD ∧ scenarioPackets.length ≤ 8 ∧
      (scenarioPackets.map Packet.length).sum ≤ 64 := by decide
  obtain ⟨q, hrun, hsize, hk, hunused, hunc, _, hledger, hbytes⟩ :=
    C13_enqueue_list 8 64 zeroBytes sevenPackets scenarioPackets hyp.1 hyp.2.1 hyp.2.2.1
      hyp.2.2.2
  have hb := hbytes 2 [0xFF, 0xFF, 0xFF] (by decide)
  exact ⟨hyp, q, hrun, hsize, hk, hunused, hunc, hledger 0 (.reserve 4) (by decide),
    hledger 1 (.reserve 8) (by decide), hledger 2 (.bytes [0xFF, 0xFF, 0xFF]) (by decide),
    hledger 3 (.reserve 16) (by decide), hb 0 (by decide), hb 1 (by decide), hb 2 (by decide)⟩

/-- C14. On a freshly constructed queue, enqueuing a list of `k ≥ 1` packets
that fits and then calling `dequeue` exactly `k` times returns normally at
every call and leaves the empty state: `size() = 0`, `unconsumed() = 0` and
`unused() = capacity()` for the queue, and for the embedded byte buffer
`m_bufferUsed = m_bufferOffset = 0` with `unused() = capacity()`. -/
theorem C14_enqueue_then_drain (max_packets max_queue_size : Nat) (junkBytes : Nat → UInt8)
    (junkPackets : Nat → Element) (ps : List Packet) (hp : max_packets < SIZE_MOD)
    (hq : max_queue_size < SIZE_MOD) (hk : ps.length ≤ max_packets)
    (hs : (ps.map Packet.length).sum ≤ max_queue_size) (hne : 1 ≤ ps.length) :
    ∃ q, (ContiguousPacketQueue.new max_packets max_queue_size junkBytes
        junkPackets).runReturning
          (ps.map Packet.toOp ++ List.replicate ps.length .dequeue) = some q ∧
      q.size = 0 ∧ q.unconsumed = 0 ∧ q.unused = q.capacity ∧ q.capacity = max_packets ∧
      q.m_packetsOffset = 0 ∧
      q.GetBuffer.m_bufferUsed = 0 ∧ q.GetBuffer.m_bufferOffset = 0 ∧
      q.GetBuffer.unused = q.GetBuffer.capacity ∧ q.GetBuffer.capacity = max_queue_size := by
  obtain ⟨q1, hrun, hw, ⟨h1, h2, _, _, _, _⟩, hsz, hbsz⟩ :=
    ContiguousPacketQueue.enqueueAll max_packets max_queue_size junkBytes junkPackets hp hq ps
      hk hs
  obtain ⟨m, hm⟩ : ∃ m, ps.length = m + 1 := ⟨ps.length - 1, by omega⟩
  obtain ⟨q, hdrain, r1, r2, r3, r4, r5, r6⟩ :=
    ContiguousPacketQueue.drain m q1 hw (by omega)
  refine ⟨q, ?_, r2, ?_, ?_, by rw [ContiguousPacketQueue.capacity, r3, hsz], r1, r5, r4, ?_,
    by rw [ContiguousPacketQueue.GetBuffer, BufferBase.capacity, r6, hbsz]⟩
  · rw [ContiguousPacketQueue.runReturning_append, hrun, hm]
    exact hdrain
  · simp only [ContiguousPacketQueue.unconsumed, r1, r2]
    exact subSz_self
  · simp only [ContiguousPacketQueue.unused, ContiguousPacketQueue.capacity, r2]
    exact subSz_of_le (Nat.zero_le _) (by omega)
  · simp only [ContiguousPacketQueue.GetBuffer, BufferBase.unused, BufferBase.capacity, r5]
    exact subSz_of_le (Nat.zero_le _) (by omega)

/-- C14, with the five packets of the self-test (lengths 4, 8, 3, 16, 3) on
`queue(8, 64)`, followed by five calls `--queue`. -/
theorem C14_enqueue_then_drain_witness :
    ((8 : Nat) < SIZE_MOD ∧ (64 : Nat) < SIZE_MOD ∧ selftestPackets.length ≤ 8 ∧
      (selftestPackets.map Packet.length).sum ≤ 64 ∧ 1 ≤ selftestPackets.length) ∧
    ∃ q, selftestQueue.runReturning
        (selftestPackets.map Packet.toOp ++ List.replicate 5 .dequeue) = some q ∧
      q.size = 0 ∧ q.unconsumed = 0 ∧ q.unused = 8 ∧ q.capacity = 8 ∧
      q.GetBuffer.m_bufferUsed = 0 ∧ q.GetBuffer.m_bufferOffset = 0 ∧
      q.GetBuffer.unused = 64 ∧ q.GetBuffer.capacity = 64 := by
  have hyp : (8 : Nat) < SIZE_MOD ∧ (64 : Nat) < SIZE_MOD ∧ selftestPackets.length ≤ 8 ∧
      (selftestPackets.map Packet.length).sum ≤ 64 ∧ 1 ≤ selftestPackets.length := by decide
  obtain ⟨q, hrun, h1, h2, h3, h4, _, h6, h7, h8, h9⟩ :=
    C14_enqueue_then_drain 8 64 zeroBytes sevenPackets selftestPackets hyp.1 hyp.2.1
      hyp.2.2.1 hyp.2.2.2.1 hyp.2.2.2.2
  exact ⟨hyp, q, hrun, h1, h2, by rw [h3, h4], h4, h6, h7, by rw [h8, h9], h9⟩

end FastBuffer
